import Mathlib

/-!
# Verification of the MetodosNumericos engine

Shallow embedding of the numerical-methods engine (`metodos/interpolacion.py`,
`metodos/integracion.py`, `metodos/derivacion.py`) over exact rational
arithmetic, together with proofs and refutations of the specification's claims.

Modelling conventions:

* Python floats are modelled by `ℚ`.  A float that is NaN (or otherwise
  undefined, e.g. `np.log` of a negative number) is modelled by `none` in
  `Option ℚ`; finite values are `some q`.  `Inf` does not arise in exact
  rational arithmetic, so `none` covers every non-finite value the claims
  mention.
* A function string that has been compiled by the external Expression
  Evaluator (`_parse_function` delegates to sympy/numpy, both outside this
  repository) is modelled as a function `f : ℚ → Option ℚ`; `none` means the
  evaluation produced NaN.
* Every `raise ValueError(msg)` site is modelled by an `Except.error` carrying
  a `PyErr` value that records the data interpolated into the message, tagged
  by the error-taxonomy kind the specification assigns to that site.
* `np.linalg.solve` (cubic splines) and `np.polynomial.legendre.leggauss`
  (Gauss–Legendre for `n > 5`) are external library routines; they are passed
  as explicit function parameters, and the theorems quantify over them.
-/

namespace Metodos

/-- The threshold `1e-15` used by the near-singularity guards of
`newton_divided_diffs` and `lagrange_interpolate`.  (The Python literal is the
double closest to `10⁻¹⁵`; the claims only use the guard through success
hypotheses, so the exact rational chosen is immaterial.) -/
def eps15 : ℚ := 1 / 10 ^ 15

/-- Data carried by each `raise ValueError(...)` site, tagged with the kind the
specification's error taxonomy (§7) assigns to the site:

* `validation` — the `_validate_*` helpers and the empty-`xq` check of
  `linear_interpolate` (malformed / out-of-constraint input);
* `nearSingular` — the `abs(denominator) < 1e-15` guards in
  `newton_divided_diffs` and `lagrange_interpolate`;
* `parseFail` — `_parse_function` could not compile the expression or its
  test evaluation at `x = 1.0` produced NaN;
* `instability` — the post-computation NaN/Inf check of `diff_adelante`,
  `diff_atras`, `diff_centrada`.  The payload records exactly the data the
  Python message interpolates: the method name used in the wrapping
  `"Error al calcular derivada ..."` prefix and the computed (non-finite)
  derivative value; the message does not contain the step `h`. -/
inductive PyErr where
  | validation (msg : String)
  | nearSingular (msg : String)
  | parseFail (msg : String)
  | instability (method : String) (value : Option ℚ)
  deriving DecidableEq, Repr

/-! ## NaN-propagating float arithmetic -/

/-- Addition on floats: NaN (`none`) absorbs. -/
def fadd : Option ℚ → Option ℚ → Option ℚ
  | some a, some b => some (a + b)
  | _, _ => none

/-- Subtraction on floats: NaN absorbs. -/
def fsub : Option ℚ → Option ℚ → Option ℚ
  | some a, some b => some (a - b)
  | _, _ => none

/-- Multiplication by a finite scalar (step sizes, quadrature weights, stencil
coefficients are always finite rationals in the embedded code). -/
def fscale (c : ℚ) : Option ℚ → Option ℚ
  | some a => some (c * a)
  | none => none

/-- Division by a finite scalar (the step `h` and its powers). -/
def fdivC : Option ℚ → ℚ → Option ℚ
  | some a, c => some (a / c)
  | none, _ => none

/-- `sum(...)` over a list of float values, starting from the integer `0`
exactly as Python's builtin `sum` does. -/
def fsum (l : List (Option ℚ)) : Option ℚ :=
  l.foldl fadd (some 0)

instance : IsTotal (ℚ × ℚ) (fun p q : ℚ × ℚ => p.1 ≤ q.1) :=
  ⟨fun a b => le_total a.1 b.1⟩

instance : IsTrans (ℚ × ℚ) (fun p q : ℚ × ℚ => p.1 ≤ q.1) :=
  ⟨fun _ _ _ h1 h2 => le_trans h1 h2⟩

/-! ## `interpolacion.py` -/

/-- Embeds `_validate_input` (interpolacion.py lines 4–25).  The per-element
`isinstance`/NaN/Inf checks are vacuous over `ℚ` and are omitted; the
remaining checks are in source order.  `len(set(x)) != len(x)` is exactly
`¬ x.Nodup`. -/
def validate_input (x y : List ℚ) : Option PyErr :=
  if x = [] ∨ y = [] then
    some (.validation "Las listas x e y no pueden estar vacías")
  else if x.length ≠ y.length then
    some (.validation "x y y deben tener la misma longitud")
  else if x.length < 2 then
    some (.validation "Se requieren al menos 2 puntos para interpolación")
  else if ¬ x.Nodup then
    some (.validation "Los valores de x deben ser únicos (no duplicados)")
  else
    none

/-- Embeds `_sort_points` (lines 27–31): stable sort of the zipped point list
by ascending `x`.  Python's `list.sort` is a stable mergesort; it is modelled
by Mathlib's stable `insertionSort`, which is observationally identical here
(every caller sorts only after `_validate_input` has established that the keys
are pairwise distinct, and a stable sort of a duplicate-free-key list is
uniquely determined). -/
def sort_points (pts : List (ℚ × ℚ)) : List (ℚ × ℚ) :=
  pts.insertionSort (fun p q => p.1 ≤ q.1)

/-- The inner segment scan of `linear_interpolate` (lines 56–60): walk over
consecutive point pairs, and on the first segment with `x_i ≤ q ≤ x_{i+1}`
return the convex combination `(1-t)·y_i + t·y_{i+1}`.  `none` models the
Python `UnboundLocalError` that would occur if no segment matched (impossible
for a sorted list when `x_0 ≤ q ≤ x_{n-1}`). -/
def find_segment (q : ℚ) : List (ℚ × ℚ) → Option ℚ
  | (x0, y0) :: (x1, y1) :: rest =>
    if x0 ≤ q ∧ q ≤ x1 then
      let t := (q - x0) / (x1 - x0)
      some ((1 - t) * y0 + t * y1)
    else find_segment q ((x1, y1) :: rest)
  | _ => none

/-- The per-query body of `linear_interpolate` (lines 43–62) on the sorted
point list: extrapolate from the first two (resp. last two) points when the
query lies left (resp. right) of the domain, otherwise scan for the
bracketing segment.  The source's index accesses `[0]`, `[1]`, `[-1]`,
`[-2]` are read through `getD`; all four are in range after validation
(`n ≥ 2`), where Python would otherwise raise `IndexError`. -/
def interp_point (pts : List (ℚ × ℚ)) (q : ℚ) : Option ℚ :=
  let pFirst := pts.getD 0 (0, 0)
  let pSecond := pts.getD 1 (0, 0)
  let pLast := pts.getD (pts.length - 1) (0, 0)
  let pPen := pts.getD (pts.length - 2) (0, 0)
  if q < pFirst.1 ∨ q > pLast.1 then
    if q < pFirst.1 then
      some (pFirst.2 + (pSecond.2 - pFirst.2) / (pSecond.1 - pFirst.1) * (q - pFirst.1))
    else
      some (pLast.2 + (pLast.2 - pPen.2) / (pLast.1 - pPen.1) * (q - pLast.1))
  else find_segment q pts

/-- Embeds `linear_interpolate` (lines 34–64): validate, sort, reject an empty
query list, then interpolate each query point. -/
def linear_interpolate (x y xq : List ℚ) : Except PyErr (List ℚ) :=
  match validate_input x y with
  | some e => .error e
  | none =>
    let pts := sort_points (x.zip y)
    if xq = [] then .error (.validation "xq no puede estar vacío")
    else
      match xq.mapM (fun q => interp_point pts q) with
      | some res => .ok res
      | none => .error (.validation "yi sin asignar")

/-- Embeds the per-query Horner loop of `eval_newton_poly` (lines 101–106):
`value = coefficients[n-1]; for i in range(n-2, -1, -1): value = value*(q -
x_nodes[i]) + coefficients[i]`.  `List.range (n-1)` folded on the right visits
`n-2, n-3, …, 0` in exactly the source order.  (For `n = 0` the Python code
would crash on `coefficients[-1]`; the claims only use `n ≥ 1`.) -/
def eval_newton_point (x_nodes coefficients : List ℚ) (q : ℚ) : ℚ :=
  (List.range (coefficients.length - 1)).foldr
    (fun i value => value * (q - x_nodes.getD i 0) + coefficients.getD i 0)
    (coefficients.getD (coefficients.length - 1) 0)

/-- Embeds `eval_newton_poly` (lines 93–108): reject mismatched lengths, then
evaluate the Newton form at every query point. -/
def eval_newton_poly (x_nodes coefficients xq : List ℚ) : Except PyErr (List ℚ) :=
  if x_nodes.length ≠ coefficients.length then
    .error (.validation "x_nodes y coefficients deben tener la misma longitud")
  else
    .ok (xq.map (eval_newton_point x_nodes coefficients))

/-- The divided-difference table of `newton_divided_diffs` (interpolacion.py
lines 74–86): column 0 holds the sorted `y` values and
`F[i][j] = (F[i+1][j-1] - F[i][j-1]) / (x_sorted[i+j] - x_sorted[i])`.
Each table entry is a function of its index pair alone, so the triangular
array is modelled by this recursion (`v` = sorted nodes, `w` = sorted values,
both read through `getD`). -/
def dd (v w : ℕ → ℚ) : ℕ → ℕ → ℚ
  | i, 0 => w i
  | i, j + 1 => (dd v w (i + 1) j - dd v w i j) / (v (i + j + 1) - v i)

/-- The near-singularity guard of `newton_divided_diffs` (lines 84–85): the
table construction raises iff some denominator `x_sorted[i+j] - x_sorted[i]`
with `1 ≤ j ≤ n-1`, `i < n-j` has magnitude below `1e-15`.  The guarded
denominators depend only on the sorted nodes (never on table values), so the
in-loop guard of the source is modelled by this pre-check over exactly the
same index pairs, followed by the pure recurrence `dd`; the resulting
`Except` value is identical. -/
def newton_bad_span (xs : List ℚ) : Bool :=
  (List.range xs.length).any fun j =>
    decide (1 ≤ j) && (List.range (xs.length - j)).any fun i =>
      decide (|xs.getD (i + j) 0 - xs.getD i 0| < eps15)

/-- Embeds `newton_divided_diffs` (lines 67–91): validate, sort, build the
divided-difference table with the near-zero guard, and return the sorted
nodes together with the first table row `F[0][j]`. -/
def newton_divided_diffs (x y : List ℚ) : Except PyErr (List ℚ × List ℚ) :=
  match validate_input x y with
  | some e => .error e
  | none =>
    let pts := sort_points (x.zip y)
    let xs := pts.map Prod.fst
    let ys := pts.map Prod.snd
    if newton_bad_span xs then
      .error (.nearSingular "División por cero en diferencias divididas")
    else
      .ok (xs, (List.range xs.length).map fun j =>
        dd (fun i => xs.getD i 0) (fun i => ys.getD i 0) 0 j)

/-- The inner basis-product loop of `lagrange_interpolate` (lines 121–129) for
a fixed `i`: iterate `j` over the index list, skip `j = i`, guard each
denominator `x[i] - x[j]` against `1e-15`, and multiply
`(q - x[j]) / (x[i] - x[j])` into the accumulator. -/
def lagrange_basis_loop (x : List ℚ) (i : ℕ) (q : ℚ) :
    List ℕ → ℚ → Except PyErr ℚ
  | [], acc => .ok acc
  | j :: js, acc =>
    if i = j then lagrange_basis_loop x i q js acc
    else
      let d := x.getD i 0 - x.getD j 0
      if |d| < eps15 then .error (.nearSingular "División por cero en Lagrange")
      else lagrange_basis_loop x i q js (acc * ((q - x.getD j 0) / d))

/-- The outer accumulation loop of `lagrange_interpolate` (lines 118–133):
`total += y[i] * li` over the index list, propagating the first guard
failure. -/
def lagrange_total_loop (x y : List ℚ) (q : ℚ) :
    List ℕ → ℚ → Except PyErr ℚ
  | [], total => .ok total
  | i :: rest, total =>
    match lagrange_basis_loop x i q (List.range x.length) 1 with
    | .error e => .error e
    | .ok li => lagrange_total_loop x y q rest (total + y.getD i 0 * li)

/-- Embeds `lagrange_interpolate` (lines 111–135): validate (the points stay
unsorted, as in the source), then evaluate the Lagrange sum at each query
point. -/
def lagrange_interpolate (x y xq : List ℚ) : Except PyErr (List ℚ) :=
  match validate_input x y with
  | some e => .error e
  | none => xq.mapM fun q => lagrange_total_loop x y q (List.range x.length) 0

/-- Pure value of the basis product `Li(q)` when no guard fires. -/
def lagrange_basis_val (x : List ℚ) (i : ℕ) (q : ℚ) : ℚ :=
  ((List.range x.length).map fun j =>
    if i = j then 1 else (q - x.getD j 0) / (x.getD i 0 - x.getD j 0)).prod

/-- Pure value of the full Lagrange sum when no guard fires. -/
def lagrange_value (x y : List ℚ) (q : ℚ) : ℚ :=
  ((List.range x.length).map fun i => y.getD i 0 * lagrange_basis_val x i q).sum

/-- The tridiagonal matrix `A` of `cubic_spline_interpolate` (lines 153–161),
built row by row from the segment widths: `A[i][i-1] = h[i]` (for `i > 0`),
`A[i][i] = 2(h[i] + h[i+1])`, `A[i][i+1] = h[i+1]` (for `i < n-3`), zeros
elsewhere. -/
def spline_matrix (hseg : List ℚ) (n : ℕ) : List (List ℚ) :=
  (List.range (n - 2)).map fun i =>
    (List.range (n - 2)).map fun k =>
      if k + 1 = i then hseg.getD i 0
      else if k = i then 2 * (hseg.getD i 0 + hseg.getD (i + 1) 0)
      else if k = i + 1 ∧ i < n - 3 then hseg.getD (i + 1) 0
      else 0

/-- The right-hand side `b` of the spline system (lines 163–164). -/
def spline_rhs (hseg ys : List ℚ) (n : ℕ) : List ℚ :=
  (List.range (n - 2)).map fun i =>
    6 * ((ys.getD (i + 2) 0 - ys.getD (i + 1) 0) / hseg.getD (i + 1) 0 -
         (ys.getD (i + 1) 0 - ys.getD i 0) / hseg.getD i 0)

/-- Per-query evaluation of the natural cubic spline (lines 176–199):
linear extrapolation outside the domain, otherwise the first bracketing
segment's cubic formula.  `sd` is the second-derivative vector (zero at both
ends, solver output in between). -/
def spline_point (xs ys hseg : List ℚ) (sd : ℕ → ℚ) (n : ℕ) (q : ℚ) :
    Option ℚ :=
  if q ≤ xs.getD 0 0 then
    some (ys.getD 0 0 + (ys.getD 1 0 - ys.getD 0 0) / hseg.getD 0 0 * (q - xs.getD 0 0))
  else if q ≥ xs.getD (n - 1) 0 then
    some (ys.getD (n - 1) 0 +
      (ys.getD (n - 1) 0 - ys.getD (n - 2) 0) / hseg.getD (n - 2) 0 * (q - xs.getD (n - 1) 0))
  else
    (List.range (n - 1)).findSome? fun i =>
      if xs.getD i 0 ≤ q ∧ q ≤ xs.getD (i + 1) 0 then
        let dx := q - xs.getD i 0
        some (ys.getD i 0 +
          dx * ((ys.getD (i + 1) 0 - ys.getD i 0) / hseg.getD i 0 -
            hseg.getD i 0 * (2 * sd i + sd (i + 1)) / 6) +
          dx ^ 2 * sd i / 2 +
          dx ^ 3 * (sd (i + 1) - sd i) / (6 * hseg.getD i 0))
      else none

/-- Embeds `cubic_spline_interpolate` (lines 138–201).  The call to
`np.linalg.solve` is an external library routine and is supplied as the
`solve` parameter (for the strictly diagonally dominant natural-spline system
the numpy call always returns a solution vector of matching length). -/
def cubic_spline_interpolate (solve : List (List ℚ) → List ℚ → List ℚ)
    (x y xq : List ℚ) : Except PyErr (List ℚ) :=
  match validate_input x y with
  | some e => .error e
  | none =>
    let pts := sort_points (x.zip y)
    let xs := pts.map Prod.fst
    let ys := pts.map Prod.snd
    let n := xs.length
    if n < 3 then linear_interpolate xs ys xq
    else
      let hseg := (List.range (n - 1)).map fun i => xs.getD (i + 1) 0 - xs.getD i 0
      let inner := solve (spline_matrix hseg n) (spline_rhs hseg ys n)
      let sd : ℕ → ℚ := fun idx =>
        if idx = 0 ∨ idx = n - 1 then 0 else inner.getD (idx - 1) 0
      match xq.mapM (fun q => spline_point xs ys hseg sd n q) with
      | some res => .ok res
      | none => .error (.validation "yi sin asignar")

/-! ## `integracion.py` -/

/-- Embeds `_validate_integration_params` (integracion.py lines 44–59).  The
`isinstance`/NaN/Inf checks on `a`, `b` and the integer check on `n` are
vacuous over `ℚ`/`ℕ`; the remaining checks are in source order.  (Negative
`n` is not representable in `ℕ`; every claim uses `n ≥ 1`.) -/
def validate_integration_params (a b : ℚ) (n : ℕ) : Option PyErr :=
  if a ≥ b then
    some (.validation "El límite inferior debe ser menor al superior")
  else if n < 1 then
    some (.validation "Número de subdivisiones debe ser entero positivo")
  else if n > 10000 then
    some (.validation "Número de subdivisiones demasiado grande")
  else
    none

/-- Models the test evaluation of `_parse_function` (integracion.py lines
33–37, identically derivacion.py lines 17–21): after compiling the
expression, the code evaluates it at `x = 1.0` and raises iff the result is
NaN (an infinite test value is let through; `Inf` does not arise over `ℚ`,
so only the NaN case is representable).  Compilation itself is the external
Expression Evaluator and is outside the model. -/
def parse_check (f : ℚ → Option ℚ) : Option PyErr :=
  if f 1 = none then
    some (.parseFail "La función no devuelve valores numéricos válidos")
  else
    none

/-- Embeds `trapecio_compuesto` (lines 66–117), dropping the step-trace list
(no claim mentions the trapezoid trace): validate, parse-check, then
`h·(f(a) + 2·Σ_{i=1}^{n-1} f(a+ih) + f(b))/2` with NaN propagation. -/
def trapecio_compuesto (f : ℚ → Option ℚ) (a b : ℚ) (n : ℕ) :
    Except PyErr (Option ℚ) :=
  match validate_integration_params a b n with
  | some e => .error e
  | none =>
    match parse_check f with
    | some e => .error e
    | none =>
      let h := (b - a) / n
      let sumInter := fsum ((List.range' 1 (n - 1)).map fun i : ℕ => f (a + i * h))
      .ok (fscale (h / 2) (fadd (fadd (f a) (fscale 2 sumInter)) (f b)))

/-- The post-adjustment body of `simpson_13_compuesto` (lines 133–162), run
with the already-adjusted even subdivision count `m`.  The second component
of the result is the `n_adjusted` field recorded in the first trace step
(line 144); the rest of the step list carries no other claim-relevant data
and is dropped. -/
def simpson13_core (f : ℚ → Option ℚ) (a b : ℚ) (m : ℕ) :
    Except PyErr (Option ℚ × ℕ) :=
  match parse_check f with
  | some e => .error e
  | none =>
    let h := (b - a) / m
    let fvals := (List.range (m + 1)).map fun i : ℕ => f (a + i * h)
    let sumOdd := fsum (((List.range m).filter fun i => i % 2 == 1).map
      fun i => fvals.getD i none)
    let sumEven := fsum (((List.range m).filter fun i => i % 2 == 0 && i != 0).map
      fun i => fvals.getD i none)
    .ok (fscale (h / 3)
      (fadd (fadd (fadd (fvals.getD 0 none) (fscale 4 sumOdd))
        (fscale 2 sumEven)) (fvals.getD m none)), m)

/-- Embeds `simpson_13_compuesto` (lines 125–162): validate the caller's `n`,
then bump an odd `n` to `n + 1` (line 130–131) and run the core. -/
def simpson_13_compuesto (f : ℚ → Option ℚ) (a b : ℚ) (n : ℕ) :
    Except PyErr (Option ℚ × ℕ) :=
  match validate_integration_params a b n with
  | some e => .error e
  | none => simpson13_core f a b (if n % 2 ≠ 0 then n + 1 else n)

/-- The post-adjustment body of `simpson_38_compuesto` (lines 173–202) with
the already-adjusted multiple-of-3 count `m`; second result component is the
`n_adjusted` trace field (line 180). -/
def simpson38_core (f : ℚ → Option ℚ) (a b : ℚ) (m : ℕ) :
    Except PyErr (Option ℚ × ℕ) :=
  match parse_check f with
  | some e => .error e
  | none =>
    let h := (b - a) / m
    let total := (List.range' 1 (m - 1)).foldl
      (fun acc (i : ℕ) => fadd acc (fscale (if i % 3 = 0 then 2 else 3) (f (a + i * h))))
      (fadd (f a) (f b))
    .ok (fscale (3 * h / 8) total, m)

/-- Embeds `simpson_38_compuesto` (lines 165–202): validate the caller's `n`,
then round a non-multiple-of-3 up via `((n // 3) + 1) * 3` (lines 170–171)
and run the core. -/
def simpson_38_compuesto (f : ℚ → Option ℚ) (a b : ℚ) (n : ℕ) :
    Except PyErr (Option ℚ × ℕ) :=
  match validate_integration_params a b n with
  | some e => .error e
  | none => simpson38_core f a b (if n % 3 ≠ 0 then (n / 3 + 1) * 3 else n)

/-- The precomputed Gauss–Legendre node/weight table (lines 216–226).  The
decimal literals of the source are represented exactly as rationals. -/
def gauss_data : ℕ → Option (List ℚ × List ℚ)
  | 1 => some ([0], [2])
  | 2 => some ([-0.5773502692, 0.5773502692], [1, 1])
  | 3 => some ([-0.7745966692, 0, 0.7745966692],
      [0.5555555556, 0.8888888889, 0.5555555556])
  | 4 => some ([-0.8611363116, -0.3399810436, 0.3399810436, 0.8611363116],
      [0.3478548451, 0.6521451549, 0.6521451549, 0.3478548451])
  | 5 => some ([-0.9061798459, -0.5384693101, 0, 0.5384693101, 0.9061798459],
      [0.2369268851, 0.4786286705, 0.5688888889, 0.4786286705, 0.2369268851])
  | _ => none

/-- Embeds `gauss_legendre` (lines 205–269), dropping the trace list (no
claim mentions the Gauss trace).  `np.polynomial.legendre.leggauss`, used for
`6 ≤ n ≤ 10`, is an external library routine supplied as the `leggauss`
parameter.  The evaluation loop indexes nodes and weights over `range n`,
exactly as the source does. -/
def gauss_legendre (leggauss : ℕ → List ℚ × List ℚ) (f : ℚ → Option ℚ)
    (a b : ℚ) (n : ℕ) : Except PyErr (Option ℚ) :=
  match validate_integration_params a b n with
  | some e => .error e
  | none =>
    let n' := if n > 10 then 10 else n
    match parse_check f with
    | some e => .error e
    | none =>
      let nw := (gauss_data n').getD (leggauss n')
      let tnodes := nw.1.map fun t => (b - a) / 2 * t + (a + b) / 2
      let s := fsum ((List.range n').map fun i =>
        fscale (nw.2.getD i 0) (f (tnodes.getD i 0)))
      .ok (fscale ((b - a) / 2) s)

/-! ## `derivacion.py` -/

/-- Embeds `_validate_derivative_params` (derivacion.py lines 28–43).  The
`isinstance`/NaN/Inf checks on `x` and `h` are vacuous over `ℚ`; the `h` and
`order` checks follow in source order. -/
def validate_derivative_params (x h : ℚ) (order : ℕ) : Option PyErr :=
  if h ≤ 0 then
    some (.validation "Paso h debe ser positivo")
  else if h > 1 then
    some (.validation "Paso h demasiado grande, puede causar errores")
  else if h < 1 / 10 ^ 12 then
    some (.validation "Paso h demasiado pequeño, puede causar errores numéricos")
  else if order < 1 ∨ order > 4 then
    some (.validation "Orden de derivada debe ser 1, 2, 3 o 4")
  else
    none

/-- The forward finite-difference stencils of `diff_adelante` (lines 51–84),
with the source's association order.  Orders outside `1..4` are unreachable
after validation. -/
def forward_stencil (f : ℚ → Option ℚ) (x h : ℚ) : ℕ → Option ℚ
  | 1 => fdivC (fsub (f (x + h)) (f x)) h
  | 2 => fdivC (fadd (fsub (f (x + 2 * h)) (fscale 2 (f (x + h)))) (f x)) (h ^ 2)
  | 3 => fdivC (fsub (fadd (fsub (f (x + 3 * h)) (fscale 3 (f (x + 2 * h))))
      (fscale 3 (f (x + h)))) (f x)) (h ^ 3)
  | 4 => fdivC (fadd (fsub (fadd (fsub (f (x + 4 * h)) (fscale 4 (f (x + 3 * h))))
      (fscale 6 (f (x + 2 * h)))) (fscale 4 (f (x + h)))) (f x)) (h ^ 4)
  | _ => none

/-- The backward finite-difference stencils of `diff_atras` (lines 101–134). -/
def backward_stencil (f : ℚ → Option ℚ) (x h : ℚ) : ℕ → Option ℚ
  | 1 => fdivC (fsub (f x) (f (x - h))) h
  | 2 => fdivC (fadd (fsub (f x) (fscale 2 (f (x - h)))) (f (x - 2 * h))) (h ^ 2)
  | 3 => fdivC (fsub (fadd (fsub (f x) (fscale 3 (f (x - h))))
      (fscale 3 (f (x - 2 * h)))) (f (x - 3 * h))) (h ^ 3)
  | 4 => fdivC (fadd (fsub (fadd (fsub (f x) (fscale 4 (f (x - h))))
      (fscale 6 (f (x - 2 * h)))) (fscale 4 (f (x - 3 * h)))) (f (x - 4 * h))) (h ^ 4)
  | _ => none

/-- The central finite-difference stencils of `diff_centrada` (lines
151–184). -/
def central_stencil (f : ℚ → Option ℚ) (x h : ℚ) : ℕ → Option ℚ
  | 1 => fdivC (fsub (f (x + h)) (f (x - h))) (2 * h)
  | 2 => fdivC (fadd (fsub (f (x + h)) (fscale 2 (f x))) (f (x - h))) (h ^ 2)
  | 3 => fdivC (fsub (fadd (fsub (f (x + 2 * h)) (fscale 2 (f (x + h))))
      (fscale 2 (f (x - h)))) (f (x - 2 * h))) (2 * h ^ 3)
  | 4 => fdivC (fadd (fsub (fadd (fsub (f (x + 2 * h)) (fscale 4 (f (x + h))))
      (fscale 6 (f x))) (fscale 4 (f (x - h)))) (f (x - 2 * h))) (h ^ 4)
  | _ => none

/-- The formula strings returned by `diff_adelante` (the prime mark of the
source's ASCII `f'` is rendered as `′`). -/
def formula_adelante : ℕ → String
  | 1 => "f′(x) ≈ [f(x+h) - f(x)] / h"
  | 2 => "f′′(x) ≈ [f(x+2h) - 2f(x+h) + f(x)] / h²"
  | 3 => "f′′′(x) ≈ [f(x+3h) - 3f(x+2h) + 3f(x+h) - f(x)] / h³"
  | _ => "f⁽⁴⁾(x) ≈ [f(x+4h) - 4f(x+3h) + 6f(x+2h) - 4f(x+h) + f(x)] / h⁴"

/-- The formula strings returned by `diff_atras`. -/
def formula_atras : ℕ → String
  | 1 => "f′(x) ≈ [f(x) - f(x-h)] / h"
  | 2 => "f′′(x) ≈ [f(x) - 2f(x-h) + f(x-2h)] / h²"
  | 3 => "f′′′(x) ≈ [f(x) - 3f(x-h) + 3f(x-2h) - f(x-3h)] / h³"
  | _ => "f⁽⁴⁾(x) ≈ [f(x) - 4f(x-h) + 6f(x-2h) - 4f(x-3h) + f(x-4h)] / h⁴"

/-- The formula strings returned by `diff_centrada`. -/
def formula_centrada : ℕ → String
  | 1 => "f′(x) ≈ [f(x+h) - f(x-h)] / (2h)"
  | 2 => "f′′(x) ≈ [f(x+h) - 2f(x) + f(x-h)] / h²"
  | 3 => "f′′′(x) ≈ [f(x+2h) - 2f(x+h) + 2f(x-h) - f(x-2h)] / (2h³)"
  | _ => "f⁽⁴⁾(x) ≈ [f(x+2h) - 4f(x+h) + 6f(x) - 4f(x-h) + f(x-2h)] / h⁴"

/-- Embeds `diff_adelante` (lines 46–93): validate, parse-check, compute the
stencil, then the NaN/Inf post-check (lines 87–88): a non-finite derivative
raises a `ValueError` whose message interpolates the computed value (re-raised
with the method-name prefix by the surrounding `except` block); the message
does not contain the value of `h`. -/
def diff_adelante (f : ℚ → Option ℚ) (x h : ℚ) (order : ℕ) :
    Except PyErr (ℚ × String) :=
  match validate_derivative_params x h order with
  | some e => .error e
  | none =>
    match parse_check f with
    | some e => .error e
    | none =>
      match forward_stencil f x h order with
      | some v => .ok (v, formula_adelante order)
      | none => .error (.instability "adelante" none)

/-- Embeds `diff_atras` (lines 96–143). -/
def diff_atras (f : ℚ → Option ℚ) (x h : ℚ) (order : ℕ) :
    Except PyErr (ℚ × String) :=
  match validate_derivative_params x h order with
  | some e => .error e
  | none =>
    match parse_check f with
    | some e => .error e
    | none =>
      match backward_stencil f x h order with
      | some v => .ok (v, formula_atras order)
      | none => .error (.instability "atras" none)

/-- Embeds `diff_centrada` (lines 146–193). -/
def diff_centrada (f : ℚ → Option ℚ) (x h : ℚ) (order : ℕ) :
    Except PyErr (ℚ × String) :=
  match validate_derivative_params x h order with
  | some e => .error e
  | none =>
    match parse_check f with
    | some e => .error e
    | none =>
      match central_stencil f x h order with
      | some v => .ok (v, formula_centrada order)
      | none => .error (.instability "centrada" none)

/-- Spec-side forward stencil (§4.3): binomial-coefficient pattern with
alternating signs on the points `x, x+h, …, x+order·h`, divided by
`h^order`. -/
def spec_forward (f : ℚ → Option ℚ) (x h : ℚ) (order : ℕ) : Option ℚ :=
  fdivC (fsum ((List.range (order + 1)).map fun k =>
    fscale ((-1) ^ (order - k) * (order.choose k)) (f (x + k * h)))) (h ^ order)

/-- Spec-side backward stencil (§4.3): binomial pattern with alternating
signs on the points `x, x−h, …, x−order·h`, divided by `h^order`. -/
def spec_backward (f : ℚ → Option ℚ) (x h : ℚ) (order : ℕ) : Option ℚ :=
  fdivC (fsum ((List.range (order + 1)).map fun k =>
    fscale ((-1) ^ k * (order.choose k)) (f (x - k * h)))) (h ^ order)

/-- Closed form of the definite integral `∫ₐᵇ x³ dx`, used to state
Gauss–Legendre exactness claims. -/
def cubic_integral (a b : ℚ) : ℚ := (b ^ 4 - a ^ 4) / 4

/-- Closed form of `∫ₐᵇ (p·x + q) dx`, used for the degree-`≤ 1` exactness of
the one-node Gauss rule. -/
def linear_integral (p q a b : ℚ) : ℚ :=
  p * (b ^ 2 - a ^ 2) / 2 + q * (b - a)

/-- A value `fun _ => some 1`, the parsed form of the constant function
string `"1"`; used to instantiate witnesses. -/
def fone : ℚ → Option ℚ := fun _ => some 1

/-- The parsed form of a function string whose evaluation is NaN everywhere
except at the parse-test point `1.0` (where `_parse_function` probes it); it
drives the NaN paths of the differentiation claims. -/
def f_nan_off_one : ℚ → Option ℚ := fun t => if t = 1 then some 1 else none

/-- The parsed form of an integrand that (like `np.log`) evaluates to NaN on
non-positive inputs but is fine at the parse-test point `1.0`. -/
def f_log : ℚ → Option ℚ := fun t => if t ≤ 0 then none else some 1

/-- The transformed abscissae at which `gauss_legendre` samples the integrand
(its internal `transformed_nodes`). -/
def gauss_sample_points (leggauss : ℕ → List ℚ × List ℚ) (a b : ℚ)
    (n' : ℕ) : List ℚ :=
  ((gauss_data n').getD (leggauss n')).1.map fun t => (b - a) / 2 * t + (a + b) / 2

/-- The parsed form of the function string `"x**3"`. -/
def fcube : ℚ → Option ℚ := fun t => some (t ^ 3)

/-- The nested (Horner-style) recurrence exactly as the specification words it
(§4.1 Newton): `value = c[n-1]; for i from n-2 down to 0: value =
value*(q − x_i) + c[i]`, written as a structural recursion on the coefficient
and node lists.  This is the spec-side definition that claim C2 compares with
the source-side `eval_newton_point`. -/
def spec_nested_value (q : ℚ) : List ℚ → List ℚ → ℚ
  | [c], _ => c
  | c :: cs, xn :: xns => spec_nested_value q cs xns * (q - xn) + c
  | _, _ => 0

/-- Bridge: the source's indexed Horner fold agrees with the structural
recurrence whenever the node and coefficient lists have the same nonzero
length. -/
theorem eval_newton_point_eq_nested (q : ℚ) :
    ∀ (c xs : List ℚ), c ≠ [] → xs.length = c.length →
      eval_newton_point xs c q = spec_nested_value q c xs := by
  intro c
  induction c with
  | nil => intro xs h _; exact absurd rfl h
  | cons c0 cs ih =>
    intro xs _ hlen
    match xs with
    | [] => simp at hlen
    | x0 :: xns =>
      match cs, xns with
      | [], [] =>
        simp [eval_newton_point, spec_nested_value]
      | [], _ :: _ => simp at hlen
      | _ :: _, [] => simp at hlen
      | c1 :: cs', x1 :: xns' =>
        have hlen' : (x1 :: xns').length = (c1 :: cs').length := by
          simpa using hlen
        have ihh := ih (x1 :: xns') (by simp) hlen'
        have hrange : List.range ((c0 :: c1 :: cs').length - 1) =
            0 :: (List.range ((c1 :: cs').length - 1)).map Nat.succ := by
          simp [List.range_succ_eq_map]
        rw [eval_newton_point, hrange]
        rw [List.foldr_cons, List.foldr_map]
        rw [show spec_nested_value q (c0 :: c1 :: cs') (x0 :: x1 :: xns') =
              spec_nested_value q (c1 :: cs') (x1 :: xns') * (q - x0) + c0 from rfl]
        rw [← ihh, eval_newton_point]
        simp [List.getD_cons_succ]

/-- **C2.** For every node vector and coefficient vector of equal length
`n ≥ 1` and every query point, `eval_newton_poly` returns exactly the value
of the specification's nested (Horner-style) recurrence
`value = c[n-1]; for i from n-2 down to 0: value = value*(xi − x[i]) + c[i]`. -/
theorem C2_eval_newton_matches_horner (x_nodes c : List ℚ) (q : ℚ)
    (hlen : x_nodes.length = c.length) (hn : 1 ≤ c.length) :
    eval_newton_poly x_nodes c [q] = .ok [spec_nested_value q c x_nodes] := by
  have hne : c ≠ [] := by
    cases c with
    | nil => simp at hn
    | cons a l => simp
  rw [eval_newton_poly, if_neg (by simp [hlen])]
  simp [eval_newton_point_eq_nested q c x_nodes hne hlen]

/-- Witness for C2: nodes `[1, 2]`, coefficients `[3, 4]`, query `5`;
the recurrence gives `4·(5−1)+3 = 19`. -/
theorem C2_witness :
    eval_newton_poly [1, 2] [3, 4] [5] = .ok [19] := by
  have h := C2_eval_newton_matches_horner [1, 2] [3, 4] 5 (by simp) (by simp)
  rw [h]
  norm_num [spec_nested_value]

/-- Helper: `simpson13_core` reports the count it was run with. -/
theorem simpson13_core_snd (f : ℚ → Option ℚ) (a b : ℚ) (m : ℕ)
    (res : Option ℚ × ℕ) (h : simpson13_core f a b m = .ok res) : res.2 = m := by
  unfold simpson13_core at h
  cases hp : parse_check f with
  | some e => rw [hp] at h; exact absurd h (by simp)
  | none =>
    rw [hp] at h
    simp only [Except.ok.injEq] at h
    rw [← h]

/-- Helper: `simpson38_core` reports the count it was run with. -/
theorem simpson38_core_snd (f : ℚ → Option ℚ) (a b : ℚ) (m : ℕ)
    (res : Option ℚ × ℕ) (h : simpson38_core f a b m = .ok res) : res.2 = m := by
  unfold simpson38_core at h
  cases hp : parse_check f with
  | some e => rw [hp] at h; exact absurd h (by simp)
  | none =>
    rw [hp] at h
    simp only [Except.ok.injEq] at h
    rw [← h]

/-- Helper: the Simpson 1/3 wrapper reduces to the core at the adjusted
count. -/
theorem simpson13_eq_core (f : ℚ → Option ℚ) (a b : ℚ) (n : ℕ)
    (hv : validate_integration_params a b n = none) :
    simpson_13_compuesto f a b n = simpson13_core f a b (if n % 2 ≠ 0 then n + 1 else n) := by
  rw [simpson_13_compuesto, hv]

/-- Helper: the Simpson 3/8 wrapper reduces to the core at the adjusted
count. -/
theorem simpson38_eq_core (f : ℚ → Option ℚ) (a b : ℚ) (n : ℕ)
    (hv : validate_integration_params a b n = none) :
    simpson_38_compuesto f a b n = simpson38_core f a b (if n % 3 ≠ 0 then (n / 3 + 1) * 3 else n) := by
  rw [simpson_38_compuesto, hv]

/-- **C4.** For every valid call: `simpson_13_compuesto` with odd `n` computes
with `n + 1` subdivisions and reports `n_adjusted = n + 1`; with even `n` it
uses `n` unchanged.  `simpson_38_compuesto` with `n` not a multiple of 3
computes with `((n // 3) + 1) * 3`, which is the least multiple of 3 that is
`≥ n`, and reports it; with `n` a multiple of 3 it uses `n` unchanged. -/
theorem C4_simpson_n_adjustment (f : ℚ → Option ℚ) (a b : ℚ) (n : ℕ)
    (hv : validate_integration_params a b n = none) :
    (n % 2 = 1 →
      simpson_13_compuesto f a b n = simpson13_core f a b (n + 1) ∧
      ∀ res, simpson_13_compuesto f a b n = .ok res → res.2 = n + 1) ∧
    (n % 2 = 0 →
      simpson_13_compuesto f a b n = simpson13_core f a b n ∧
      ∀ res, simpson_13_compuesto f a b n = .ok res → res.2 = n) ∧
    (n % 3 ≠ 0 →
      simpson_38_compuesto f a b n = simpson38_core f a b ((n / 3 + 1) * 3) ∧
      (∀ res, simpson_38_compuesto f a b n = .ok res → res.2 = (n / 3 + 1) * 3) ∧
      ((n / 3 + 1) * 3) % 3 = 0 ∧ n ≤ (n / 3 + 1) * 3 ∧
      ∀ m, m % 3 = 0 → n ≤ m → (n / 3 + 1) * 3 ≤ m) ∧
    (n % 3 = 0 →
      simpson_38_compuesto f a b n = simpson38_core f a b n ∧
      ∀ res, simpson_38_compuesto f a b n = .ok res → res.2 = n) := by
  have h13 : ∀ m, simpson_13_compuesto f a b n = simpson13_core f a b m →
      ∀ res, simpson_13_compuesto f a b n = .ok res → res.2 = m := by
    intro m he res hr
    exact simpson13_core_snd f a b m res (he ▸ hr)
  have h38 : ∀ m, simpson_38_compuesto f a b n = simpson38_core f a b m →
      ∀ res, simpson_38_compuesto f a b n = .ok res → res.2 = m := by
    intro m he res hr
    exact simpson38_core_snd f a b m res (he ▸ hr)
  refine ⟨fun hodd => ?_, fun heven => ?_, fun h3 => ?_, fun h3 => ?_⟩
  · have he : simpson_13_compuesto f a b n = simpson13_core f a b (n + 1) := by
      rw [simpson13_eq_core f a b n hv]
      simp [hodd]
    exact ⟨he, h13 (n + 1) he⟩
  · have he : simpson_13_compuesto f a b n = simpson13_core f a b n := by
      rw [simpson13_eq_core f a b n hv]
      simp [heven]
    exact ⟨he, h13 n he⟩
  · have he : simpson_38_compuesto f a b n = simpson38_core f a b ((n / 3 + 1) * 3) := by
      rw [simpson38_eq_core f a b n hv]
      simp [h3]
    refine ⟨he, h38 _ he, by omega, by omega, by omega⟩
  · have he : simpson_38_compuesto f a b n = simpson38_core f a b n := by
      rw [simpson38_eq_core f a b n hv]
      simp [h3]
    exact ⟨he, h38 n he⟩

/-- Witness for C4: `n = 5` is odd and not a multiple of 3; Simpson 1/3 runs
with 6 and Simpson 3/8 with `(5/3+1)·3 = 6`. -/
theorem C4_witness :
    simpson_13_compuesto fone 0 1 5 = simpson13_core fone 0 1 6 ∧
    simpson_38_compuesto fone 0 1 5 = simpson38_core fone 0 1 6 := by
  have h := C4_simpson_n_adjustment fone 0 1 5 (by decide)
  exact ⟨(h.1 (by decide)).1, (h.2.2.1 (by decide)).1⟩

/-- **C10 counterexample.** The claim asserts the adjusted count is 10002 for
every valid non-multiple-of-3 `n` with `9998 ≤ n ≤ 10000`; but at `n = 9998`
(valid, `9998 % 3 = 2`) the code computes with `((9998 // 3) + 1) · 3 = 9999`,
not 10002. -/
theorem C10_counterexample :
    validate_integration_params 0 1 9998 = none ∧
    simpson_38_compuesto fone 0 1 9998 = simpson38_core fone 0 1 9999 ∧
    (9999 : ℕ) ≠ 10002 := by
  refine ⟨by decide, ?_, by decide⟩
  have h := simpson38_eq_core fone 0 1 9998 (by decide)
  norm_num at h
  exact h

/-- **C10 amended.** `simpson_38_compuesto` validates the caller-supplied `n`
against the cap of 10000 before rounding up, so the adjusted count can exceed
the cap — but in the range `9998 ≤ n ≤ 10000` this happens only at
`n = 10000`, where the computation runs with `10002 > 10000` while validation
succeeds (`n = 9998` adjusts to `9999`, within the cap; `n = 9999` is already
a multiple of 3). -/
theorem C10_amended_cap_bypass (f : ℚ → Option ℚ) (a b : ℚ) (hab : a < b) :
    validate_integration_params a b 10000 = none ∧
    simpson_38_compuesto f a b 10000 = simpson38_core f a b 10002 ∧
    10000 < 10002 ∧
    ∀ m, validate_integration_params a b m = none → m ≤ 10000 := by
  have hv : validate_integration_params a b 10000 = none := by
    rw [validate_integration_params]
    rw [if_neg (not_le.mpr hab)]
    norm_num
  refine ⟨hv, ?_, by norm_num, ?_⟩
  · have h := simpson38_eq_core f a b 10000 hv
    norm_num at h
    exact h
  · intro m hm
    rw [validate_integration_params, if_neg (not_le.mpr hab)] at hm
    by_contra hgt
    rw [if_neg (by omega), if_pos (by omega)] at hm
    exact absurd hm (by simp)

/-- Witness for the amended C10 at `a = 0`, `b = 1`. -/
theorem C10_amended_witness :
    simpson_38_compuesto fone 0 1 10000 = simpson38_core fone 0 1 10002 :=
  (C10_amended_cap_bypass fone 0 1 (by norm_num)).2.1

/-- Helper: duplicate `x` values make `_validate_input` fail with a
`ValidationError` (whichever check fires first is one). -/
theorem validate_input_dup (x y : List ℚ) (hd : ¬ x.Nodup) :
    ∃ m, validate_input x y = some (.validation m) := by
  unfold validate_input
  split_ifs with h1 h2 h3
  · exact ⟨_, rfl⟩
  · exact ⟨_, rfl⟩
  · exact ⟨_, rfl⟩
  · exact ⟨_, rfl⟩

/-- Helper: a successful `_validate_input` gives nonempty, equal-length,
`≥ 2`-point, duplicate-free input. -/
theorem validate_input_none (x y : List ℚ) (hv : validate_input x y = none) :
    x ≠ [] ∧ x.length = y.length ∧ 2 ≤ x.length ∧ x.Nodup := by
  unfold validate_input at hv
  split_ifs at hv with h1 h2 h3 h4
  exact ⟨fun hx => h1 (Or.inl hx), not_ne_iff.mp h2, not_lt.mp h3, h4⟩

/-- Helper: `a ≥ b` makes `_validate_integration_params` fail first. -/
theorem validate_integration_ge (a b : ℚ) (n : ℕ) (hab : a ≥ b) :
    validate_integration_params a b n =
      some (.validation "El límite inferior debe ser menor al superior") := by
  unfold validate_integration_params
  rw [if_pos hab]

/-- Helper: `h ≤ 0` or `h > 1` makes `_validate_derivative_params` fail. -/
theorem validate_derivative_bad (x st : ℚ) (order : ℕ) (hst : st ≤ 0 ∨ 1 < st) :
    ∃ m, validate_derivative_params x st order = some (.validation m) := by
  unfold validate_derivative_params
  rcases hst with hle | hgt
  · rw [if_pos hle]
    exact ⟨_, rfl⟩
  · rw [if_neg (by linarith), if_pos hgt]
    exact ⟨_, rfl⟩

/-- **C8.** Validation raises before any computation: duplicate `x` values
fail every interpolation variant with a `ValidationError`; `a ≥ b` fails
every integration variant with a `ValidationError`; `h ≤ 0` or `h > 1.0`
fails every differentiation variant with a `ValidationError`.  No numeric
result is produced in any of these cases. -/
theorem C8_validation_rejects (x y xq : List ℚ)
    (solve : List (List ℚ) → List ℚ → List ℚ)
    (f : ℚ → Option ℚ) (a b : ℚ) (n : ℕ) (xp st : ℚ) (order : ℕ)
    (leggauss : ℕ → List ℚ × List ℚ) :
    (¬ x.Nodup →
      (∃ m, linear_interpolate x y xq = .error (.validation m)) ∧
      (∃ m, newton_divided_diffs x y = .error (.validation m)) ∧
      (∃ m, lagrange_interpolate x y xq = .error (.validation m)) ∧
      (∃ m, cubic_spline_interpolate solve x y xq = .error (.validation m))) ∧
    (a ≥ b →
      (∃ m, trapecio_compuesto f a b n = .error (.validation m)) ∧
      (∃ m, simpson_13_compuesto f a b n = .error (.validation m)) ∧
      (∃ m, simpson_38_compuesto f a b n = .error (.validation m)) ∧
      (∃ m, gauss_legendre leggauss f a b n = .error (.validation m))) ∧
    (st ≤ 0 ∨ 1 < st →
      (∃ m, diff_adelante f xp st order = .error (.validation m)) ∧
      (∃ m, diff_atras f xp st order = .error (.validation m)) ∧
      (∃ m, diff_centrada f xp st order = .error (.validation m))) := by
  refine ⟨fun hd => ?_, fun hab => ?_, fun hst => ?_⟩
  · obtain ⟨m, hm⟩ := validate_input_dup x y hd
    refine ⟨⟨m, ?_⟩, ⟨m, ?_⟩, ⟨m, ?_⟩, ⟨m, ?_⟩⟩
    · rw [linear_interpolate, hm]
    · rw [newton_divided_diffs, hm]
    · rw [lagrange_interpolate, hm]
    · rw [cubic_spline_interpolate, hm]
  · obtain ⟨m, hm⟩ : ∃ m, validate_integration_params a b n = some (.validation m) :=
      ⟨_, validate_integration_ge a b n hab⟩
    refine ⟨⟨m, ?_⟩, ⟨m, ?_⟩, ⟨m, ?_⟩, ⟨m, ?_⟩⟩
    · rw [trapecio_compuesto, hm]
    · rw [simpson_13_compuesto, hm]
    · rw [simpson_38_compuesto, hm]
    · rw [gauss_legendre, hm]
  · obtain ⟨m, hm⟩ := validate_derivative_bad xp st order hst
    refine ⟨⟨m, ?_⟩, ⟨m, ?_⟩, ⟨m, ?_⟩⟩
    · rw [diff_adelante, hm]
    · rw [diff_atras, hm]
    · rw [diff_centrada, hm]

/-- Witness for C8: duplicated abscissae `[1,1]`, inverted bounds `1 ≥ 0`,
oversized step `h = 2`. -/
theorem C8_witness :
    (∃ m, linear_interpolate [1, 1] [2, 3] [0] = .error (.validation m)) ∧
    (∃ m, trapecio_compuesto fone 1 0 4 = .error (.validation m)) ∧
    (∃ m, diff_adelante fone 0 2 1 = .error (.validation m)) := by
  have h := C8_validation_rejects [1, 1] [2, 3] [0] (fun _ _ => [])
    fone 1 0 4 0 2 1 (fun _ => ([], []))
  exact ⟨(h.1 (by decide)).1, (h.2.1 (by norm_num)).1, (h.2.2 (by norm_num)).1⟩

/-- **C9.** On an empty query list the variants disagree: `linear_interpolate`
raises (`"xq no puede estar vacío"`), while `lagrange_interpolate`,
`eval_newton_poly` and `cubic_spline_interpolate` (the latter with at least 3
sample points, for any solver) return the empty list. -/
theorem C9_empty_query_disagreement (x y : List ℚ)
    (hv : validate_input x y = none)
    (nodes coeffs : List ℚ) (hlen : nodes.length = coeffs.length)
    (solve : List (List ℚ) → List ℚ → List ℚ) :
    linear_interpolate x y [] = .error (.validation "xq no puede estar vacío") ∧
    lagrange_interpolate x y [] = .ok [] ∧
    eval_newton_poly nodes coeffs [] = .ok [] ∧
    (3 ≤ x.length → cubic_spline_interpolate solve x y [] = .ok []) := by
  obtain ⟨-, hxy, -, -⟩ := validate_input_none x y hv
  refine ⟨?_, ?_, ?_, fun h3 => ?_⟩
  · rw [linear_interpolate, hv]
    simp
  · rw [lagrange_interpolate, hv]
    rfl
  · rw [eval_newton_poly, if_neg (by simp [hlen])]
    simp
  · simp only [cubic_spline_interpolate, hv]
    have hlen2 : ((sort_points (x.zip y)).map Prod.fst).length = x.length := by
      rw [List.length_map, sort_points, (List.perm_insertionSort _ _).length_eq,
        List.length_zip, hxy, min_self]
    rw [hlen2, if_neg (by omega)]
    rfl

/-- Witness for C9 at `x = [0,1,2]`, `y = [0,1,4]`. -/
theorem C9_witness :
    linear_interpolate [0, 1, 2] [0, 1, 4] [] =
      .error (.validation "xq no puede estar vacío") ∧
    lagrange_interpolate [0, 1, 2] [0, 1, 4] [] = .ok [] ∧
    eval_newton_poly [0, 1] [5, 7] [] = .ok [] ∧
    cubic_spline_interpolate (fun _ _ => []) [0, 1, 2] [0, 1, 4] [] = .ok [] := by
  have h := C9_empty_query_disagreement [0, 1, 2] [0, 1, 4] (by decide)
    [0, 1] [5, 7] (by decide) (fun _ _ => [])
  exact ⟨h.1, h.2.1, h.2.2.1, h.2.2.2 (by decide)⟩

theorem fadd_some (a b : ℚ) : fadd (some a) (some b) = some (a + b) := rfl

theorem fadd_none_left (v : Option ℚ) : fadd none v = none := rfl

theorem fadd_none_right (v : Option ℚ) : fadd v none = none := by
  cases v <;> rfl

theorem fsub_some (a b : ℚ) : fsub (some a) (some b) = some (a - b) := rfl

theorem fsub_none_left (v : Option ℚ) : fsub none v = none := rfl

theorem fsub_none_right (v : Option ℚ) : fsub v none = none := by
  cases v <;> rfl

theorem fscale_some (c a : ℚ) : fscale c (some a) = some (c * a) := rfl

theorem fscale_none (c : ℚ) : fscale c none = none := rfl

theorem fdivC_some (a c : ℚ) : fdivC (some a) c = some (a / c) := rfl

theorem fdivC_none (c : ℚ) : fdivC none c = none := rfl

/-- Helper: a successful `_validate_derivative_params` bounds `h` and
`order`. -/
theorem validate_derivative_none (x h : ℚ) (order : ℕ)
    (hv : validate_derivative_params x h order = none) :
    0 < h ∧ h ≤ 1 ∧ 1 ≤ order ∧ order ≤ 4 := by
  unfold validate_derivative_params at hv
  split_ifs at hv with h1 h2 h3 h4
  push_neg at h4
  exact ⟨lt_of_not_le h1, not_lt.mp h2, by omega, by omega⟩

/-- The source's explicit forward stencils coincide (orders 1–4) with the
spec's binomial-coefficient pattern with alternating signs. -/
theorem forward_stencil_eq_spec (f : ℚ → Option ℚ) (x h : ℚ) (order : ℕ)
    (ho : 1 ≤ order ∧ order ≤ 4) :
    forward_stencil f x h order = spec_forward f x h order := by
  obtain ⟨h1, h4⟩ := ho
  interval_cases order
  · rw [forward_stencil, spec_forward]
    norm_num [List.range_succ, fsum, Nat.choose]
    cases f x <;> cases f (x + h) <;>
      simp [fadd, fsub, fscale, fdivC] <;> ring_nf
  · rw [forward_stencil, spec_forward]
    norm_num [List.range_succ, fsum, Nat.choose]
    cases f x <;> cases f (x + h) <;> cases f (x + 2 * h) <;>
      simp [fadd, fsub, fscale, fdivC] <;> ring_nf
  · rw [forward_stencil, spec_forward]
    norm_num [List.range_succ, fsum, Nat.choose]
    cases f x <;> cases f (x + h) <;> cases f (x + 2 * h) <;> cases f (x + 3 * h) <;>
      simp [fadd, fsub, fscale, fdivC] <;> ring_nf
  · rw [forward_stencil, spec_forward]
    norm_num [List.range_succ, fsum, Nat.choose]
    cases f x <;> cases f (x + h) <;> cases f (x + 2 * h) <;> cases f (x + 3 * h) <;>
      cases f (x + 4 * h) <;> simp [fadd, fsub, fscale, fdivC] <;> ring_nf

/-- The source's explicit backward stencils coincide (orders 1–4) with the
spec's binomial pattern. -/
theorem backward_stencil_eq_spec (f : ℚ → Option ℚ) (x h : ℚ) (order : ℕ)
    (ho : 1 ≤ order ∧ order ≤ 4) :
    backward_stencil f x h order = spec_backward f x h order := by
  obtain ⟨h1, h4⟩ := ho
  interval_cases order
  · rw [backward_stencil, spec_backward]
    norm_num [List.range_succ, fsum, Nat.choose]
    cases f x <;> cases f (x - h) <;>
      simp [fadd, fsub, fscale, fdivC] <;> ring_nf
  · rw [backward_stencil, spec_backward]
    norm_num [List.range_succ, fsum, Nat.choose]
    cases f x <;> cases f (x - h) <;> cases f (x - 2 * h) <;>
      simp [fadd, fsub, fscale, fdivC] <;> ring_nf
  · rw [backward_stencil, spec_backward]
    norm_num [List.range_succ, fsum, Nat.choose]
    cases f x <;> cases f (x - h) <;> cases f (x - 2 * h) <;> cases f (x - 3 * h) <;>
      simp [fadd, fsub, fscale, fdivC] <;> ring_nf
  · rw [backward_stencil, spec_backward]
    norm_num [List.range_succ, fsum, Nat.choose]
    cases f x <;> cases f (x - h) <;> cases f (x - 2 * h) <;> cases f (x - 3 * h) <;>
      cases f (x - 4 * h) <;> simp [fadd, fsub, fscale, fdivC] <;> ring_nf

/-- **C7 amended.** For every valid differentiation call: if the computed
finite-difference value is NaN, the call fails hard with a
`NumericInstabilityError` that reports the non-finite computed value and the
method name — the error does not include the offending `h` — and otherwise
the finite numeric result (equal, for forward/backward, to the spec's
binomial stencil) and the formula string are returned. -/
theorem C7_amended_instability_check (f : ℚ → Option ℚ) (xp st : ℚ) (order : ℕ)
    (hv : validate_derivative_params xp st order = none)
    (hp : parse_check f = none) :
    (diff_adelante f xp st order =
      match spec_forward f xp st order with
      | some v => .ok (v, formula_adelante order)
      | none => .error (.instability "adelante" none)) ∧
    (diff_atras f xp st order =
      match spec_backward f xp st order with
      | some v => .ok (v, formula_atras order)
      | none => .error (.instability "atras" none)) ∧
    (diff_centrada f xp st order =
      match central_stencil f xp st order with
      | some v => .ok (v, formula_centrada order)
      | none => .error (.instability "centrada" none)) := by
  obtain ⟨-, -, ho1, ho4⟩ := validate_derivative_none xp st order hv
  refine ⟨?_, ?_, ?_⟩
  · rw [diff_adelante, hv, hp, forward_stencil_eq_spec f xp st order ⟨ho1, ho4⟩]
  · rw [diff_atras, hv, hp, backward_stencil_eq_spec f xp st order ⟨ho1, ho4⟩]
  · rw [diff_centrada, hv, hp]

/-- Witness for the amended C7: `f = 1` (constant), `x = 0`, `h = 1/10`,
order 1: finite result `0` with the forward formula string. -/
theorem C7_amended_witness :
    diff_adelante fone 0 (1 / 10) 1 = .ok (0, formula_adelante 1) := by
  have hv : validate_derivative_params 0 (1 / 10 : ℚ) 1 = none := by
    unfold validate_derivative_params
    norm_num
  have hp : parse_check fone = none := by
    unfold parse_check fone
    simp
  have h := (C7_amended_instability_check fone 0 (1 / 10) 1 hv hp).1
  rw [h]
  norm_num [spec_forward, fone, List.range_succ, fsum, fadd, fscale, fdivC, Nat.choose]

/-- **C7 counterexample.** The claim says the instability error's message
names the offending `h`.  But the error value the code produces is identical
for two different `h` (it interpolates only the computed NaN value and a
fixed remediation text), so it cannot name the offending `h`: with an
integrand that is NaN away from the parse-test point `1.0`, the calls with
`h = 1/10` and `h = 1/100` fail with literally the same error. -/
theorem C7_counterexample :
    diff_adelante f_nan_off_one 0 (1 / 10) 1 = .error (.instability "adelante" none) ∧
    diff_adelante f_nan_off_one 0 (1 / 100) 1 =
      diff_adelante f_nan_off_one 0 (1 / 10) 1 ∧
    (1 / 10 : ℚ) ≠ 1 / 100 := by
  have hstep : ∀ st : ℚ, 0 < st → st ≤ 1 → 1 / 10 ^ 12 ≤ st → st ≠ 1 →
      diff_adelante f_nan_off_one 0 st 1 = .error (.instability "adelante" none) := by
    intro st h0 h1e hsm hne
    rw [diff_adelante]
    have hv : validate_derivative_params 0 st 1 = none := by
      unfold validate_derivative_params
      rw [if_neg (by linarith), if_neg (by linarith), if_neg (by linarith),
        if_neg (by norm_num)]
    rw [hv]
    have hpc : parse_check f_nan_off_one = none := by
      simp [parse_check, f_nan_off_one]
    rw [hpc]
    have hfs : forward_stencil f_nan_off_one 0 st 1 = none := by
      rw [forward_stencil]
      have hz : f_nan_off_one 0 = none := by
        unfold f_nan_off_one
        norm_num
      have hst : f_nan_off_one (0 + st) = none := by
        unfold f_nan_off_one
        rw [zero_add, if_neg hne]
      rw [hz, hst, fsub_none_left, fdivC_none]
    rw [hfs]
  have e1 := hstep (1 / 10) (by norm_num) (by norm_num) (by norm_num) (by norm_num)
  have e2 := hstep (1 / 100) (by norm_num) (by norm_num) (by norm_num) (by norm_num)
  exact ⟨e1, e2.trans e1.symm, by norm_num⟩

/-- Helper: a successful `_validate_integration_params` gives `a < b` and
`1 ≤ n ≤ 10000`. -/
theorem validate_integration_none (a b : ℚ) (n : ℕ)
    (hv : validate_integration_params a b n = none) :
    a < b ∧ 1 ≤ n ∧ n ≤ 10000 := by
  unfold validate_integration_params at hv
  split_ifs at hv with h1 h2 h3
  exact ⟨lt_of_not_le h1, by omega, by omega⟩

/-- Folding `fadd` over terms returns NaN as soon as the accumulator is NaN
or some term is NaN. -/
theorem foldl_fadd_eq_none (g : ℕ → Option ℚ) :
    ∀ (l : List ℕ) (acc : Option ℚ), acc = none ∨ (∃ i ∈ l, g i = none) →
      l.foldl (fun acc i => fadd acc (g i)) acc = none := by
  intro l
  induction l with
  | nil =>
    intro acc h
    rcases h with h | ⟨i, hi, _⟩
    · exact h
    · cases hi
  | cons j js ih =>
    intro acc h
    rw [List.foldl_cons]
    rcases h with h | ⟨i, hi, hgi⟩
    · exact ih _ (Or.inl (by rw [h, fadd_none_left]))
    · rcases List.mem_cons.mp hi with heq | hmem
      · refine ih _ (Or.inl ?_)
        rw [heq] at hgi
        rw [hgi, fadd_none_right]
      · exact ih _ (Or.inr ⟨i, hmem, hgi⟩)

/-- A NaN term makes the whole Python `sum(...)` NaN. -/
theorem fsum_map_eq_none (g : ℕ → Option ℚ) (l : List ℕ) (i : ℕ) (hi : i ∈ l)
    (hgi : g i = none) : fsum (l.map g) = none := by
  rw [fsum, List.foldl_map]
  exact foldl_fadd_eq_none g l _ (Or.inr ⟨i, hi, hgi⟩)

/-- Reading back the sampled values list of `simpson_13_compuesto`. -/
theorem getD_map_range (g : ℕ → Option ℚ) (m i : ℕ) (hi : i < m) :
    ((List.range m).map g).getD i none = g i := by
  rw [List.getD_eq_getElem?_getD, List.getElem?_map, List.getElem?_range hi]
  rfl

/-- If the integrand is NaN at any of the `n+1` trapezoid sample points, the
call returns the NaN result (it is not intercepted). -/
theorem trapecio_compuesto_nan (f : ℚ → Option ℚ) (a b : ℚ) (n : ℕ)
    (hv : validate_integration_params a b n = none) (hp : parse_check f = none)
    (i : ℕ) (hin : i ≤ n) (hfi : f (a + i * ((b - a) / n)) = none) :
    trapecio_compuesto f a b n = .ok none := by
  obtain ⟨hab, hn1, -⟩ := validate_integration_none a b n hv
  simp only [trapecio_compuesto, hv, hp]
  refine congrArg Except.ok ?_
  by_cases hi0 : i = 0
  · subst hi0
    rw [show a + (0 : ℕ) * ((b - a) / n) = a by push_cast; ring] at hfi
    rw [hfi, fadd_none_left, fadd_none_left, fscale_none]
  · by_cases hin' : i = n
    · have hb : a + (n : ℚ) * ((b - a) / n) = b := by
        have hn0 : (n : ℚ) ≠ 0 := by positivity
        field_simp
      rw [hin', hb] at hfi
      rw [hfi, fadd_none_right, fscale_none]
    · have hmem : i ∈ List.range' 1 (n - 1) := by
        rw [List.mem_range'_1]
        omega
      have hS := fsum_map_eq_none (fun i => f (a + i * ((b - a) / n)))
        (List.range' 1 (n - 1)) i hmem hfi
      rw [hS, fscale_none, fadd_none_right, fadd_none_left, fscale_none]

/-- If the integrand is NaN at any of the `m+1` Simpson-1/3 sample points,
the core returns the NaN result together with the reported count. -/
theorem simpson13_core_nan (f : ℚ → Option ℚ) (a b : ℚ) (m : ℕ)
    (hp : parse_check f = none)
    (i : ℕ) (him : i ≤ m) (hfi : f (a + i * ((b - a) / m)) = none) :
    simpson13_core f a b m = .ok (none, m) := by
  simp only [simpson13_core, hp]
  refine congrArg Except.ok (Prod.ext ?_ rfl)
  have hget : ∀ k ≤ m,
      (((List.range (m + 1)).map fun j : ℕ => f (a + j * ((b - a) / m))).getD k none) =
        f (a + k * ((b - a) / m)) := by
    intro k hk
    exact getD_map_range _ (m + 1) k (by omega)
  by_cases hi0 : i = 0
  · subst hi0
    rw [hget 0 (by omega), hfi, fadd_none_left, fadd_none_left, fadd_none_left,
      fscale_none]
  · by_cases him' : i = m
    · rw [him'] at hfi
      rw [hget m le_rfl, hfi, fadd_none_right, fscale_none]
    · by_cases hpar : i % 2 = 1
      · have hmem : i ∈ (List.range m).filter fun j => j % 2 == 1 := by
          rw [List.mem_filter, List.mem_range]
          exact ⟨by omega, by simpa using hpar⟩
        have hS := fsum_map_eq_none
          (fun j => ((List.range (m + 1)).map fun j : ℕ => f (a + j * ((b - a) / m))).getD j none)
          _ i hmem (by simpa using (hget i him).trans hfi)
        rw [hS, fscale_none, fadd_none_right, fadd_none_left, fadd_none_left,
          fscale_none]
      · have hmem : i ∈ (List.range m).filter fun j => j % 2 == 0 && j != 0 := by
          rw [List.mem_filter, List.mem_range]
          refine ⟨by omega, ?_⟩
          simp only [Bool.and_eq_true, beq_iff_eq, bne_iff_ne]
          omega
        have hS := fsum_map_eq_none
          (fun j => ((List.range (m + 1)).map fun j : ℕ => f (a + j * ((b - a) / m))).getD j none)
          _ i hmem (by simpa using (hget i him).trans hfi)
        rw [hS, fscale_none, fadd_none_right, fadd_none_left, fscale_none]

/-- If the integrand is NaN at any of the `m+1` Simpson-3/8 sample points,
the core returns the NaN result together with the reported count. -/
theorem simpson38_core_nan (f : ℚ → Option ℚ) (a b : ℚ) (m : ℕ) (hm : 1 ≤ m)
    (hp : parse_check f = none)
    (i : ℕ) (him : i ≤ m) (hfi : f (a + i * ((b - a) / m)) = none) :
    simpson38_core f a b m = .ok (none, m) := by
  simp only [simpson38_core, hp]
  refine congrArg Except.ok (Prod.ext ?_ rfl)
  have hfoldn : ∀ acc : Option ℚ, acc = none ∨
      (∃ j ∈ List.range' 1 (m - 1),
        (fun j : ℕ => fscale (if j % 3 = 0 then 2 else 3) (f (a + j * ((b - a) / m)))) j = none) →
      (List.range' 1 (m - 1)).foldl
        (fun acc (j : ℕ) => fadd acc (fscale (if j % 3 = 0 then 2 else 3) (f (a + j * ((b - a) / m)))))
        acc = none := fun acc h => foldl_fadd_eq_none
          (fun j : ℕ => fscale (if j % 3 = 0 then 2 else 3) (f (a + j * ((b - a) / m))))
          (List.range' 1 (m - 1)) acc h
  by_cases hi0 : i = 0
  · subst hi0
    rw [show a + (0 : ℕ) * ((b - a) / m) = a by push_cast; ring] at hfi
    rw [hfoldn _ (Or.inl (by rw [hfi, fadd_none_left])), fscale_none]
  · by_cases him' : i = m
    · have hb : a + (m : ℚ) * ((b - a) / m) = b := by
        have hm0 : (m : ℚ) ≠ 0 := by
          have h0m : 0 < m := hm
          positivity
        field_simp
      rw [him', hb] at hfi
      rw [hfoldn _ (Or.inl (by rw [hfi, fadd_none_right])), fscale_none]
    · have hmem : i ∈ List.range' 1 (m - 1) := by
        rw [List.mem_range'_1]
        omega
      rw [hfoldn _ (Or.inr ⟨i, hmem, by simp only []; rw [hfi, fscale_none]⟩),
        fscale_none]

/-- If the integrand is NaN at any Gauss–Legendre sample point, the call
returns the NaN result. -/
theorem gauss_legendre_nan (leggauss : ℕ → List ℚ × List ℚ)
    (f : ℚ → Option ℚ) (a b : ℚ) (n : ℕ)
    (hv : validate_integration_params a b n = none) (hp : parse_check f = none)
    (i : ℕ) (him : i < if n > 10 then 10 else n)
    (hfi : f ((gauss_sample_points leggauss a b (if n > 10 then 10 else n)).getD i 0) = none) :
    gauss_legendre leggauss f a b n = .ok none := by
  simp only [gauss_legendre, hv, hp]
  refine congrArg Except.ok ?_
  unfold gauss_sample_points at hfi
  have hS := fsum_map_eq_none
    (fun j => fscale ((((gauss_data (if n > 10 then 10 else n)).getD
        (leggauss (if n > 10 then 10 else n))).2).getD j 0)
      (f ((((gauss_data (if n > 10 then 10 else n)).getD
        (leggauss (if n > 10 then 10 else n))).1.map
          fun t => (b - a) / 2 * t + (a + b) / 2).getD j 0)))
    (List.range (if n > 10 then 10 else n)) i (List.mem_range.mpr him)
    (by simp only []; rw [hfi, fscale_none])
  rw [hS, fscale_none]

/-- **C6 amended / corrected.** None of the four integration variants
intercepts an evaluation failure of the integrand at a sampled point — the
loops contain no per-point check and no `FunctionEvaluationError` exists in
the code.  A NaN sample instead propagates through the arithmetic and the
call returns a NaN numeric result (`.ok none`); only `_parse_function`'s
test evaluation at `x = 1.0` raises. -/
theorem C6_amended_nan_result_returned (f : ℚ → Option ℚ) (a b : ℚ) (n : ℕ)
    (leggauss : ℕ → List ℚ × List ℚ)
    (hv : validate_integration_params a b n = none)
    (hp : parse_check f = none) :
    ((∃ i ≤ n, f (a + i * ((b - a) / n)) = none) →
      trapecio_compuesto f a b n = .ok none) ∧
    (∀ m, m = (if n % 2 ≠ 0 then n + 1 else n) →
      (∃ i ≤ m, f (a + i * ((b - a) / m)) = none) →
      simpson_13_compuesto f a b n = .ok (none, m)) ∧
    (∀ m, m = (if n % 3 ≠ 0 then (n / 3 + 1) * 3 else n) →
      (∃ i ≤ m, f (a + i * ((b - a) / m)) = none) →
      simpson_38_compuesto f a b n = .ok (none, m)) ∧
    (∀ m, m = (if n > 10 then 10 else n) →
      (∃ i < m, f ((gauss_sample_points leggauss a b m).getD i 0) = none) →
      gauss_legendre leggauss f a b n = .ok none) := by
  obtain ⟨hab, hn1, -⟩ := validate_integration_none a b n hv
  refine ⟨?_, ?_, ?_, ?_⟩
  · rintro ⟨i, hin, hfi⟩
    exact trapecio_compuesto_nan f a b n hv hp i hin hfi
  · rintro m rfl ⟨i, him, hfi⟩
    rw [simpson13_eq_core f a b n hv]
    exact simpson13_core_nan f a b _ hp i him hfi
  · rintro m rfl ⟨i, him, hfi⟩
    rw [simpson38_eq_core f a b n hv]
    exact simpson38_core_nan f a b _ (by split <;> omega) hp i him hfi
  · rintro m rfl ⟨i, him, hfi⟩
    exact gauss_legendre_nan leggauss f a b n hv hp i him hfi

/-- **C6 counterexample.** The integrand modelled after `log(x)` is NaN at
the sampled point `x₁ = -1 + 1·h = 0` of `trapecio_compuesto` on `[-1, 1]`
with `n = 2`, yet the call returns a numeric (NaN) result instead of failing
with a `FunctionEvaluationError` naming the failing `x`. -/
theorem C6_counterexample :
    ((-1 : ℚ) + 1 * ((1 - -1) / 2) = 0) ∧ f_log 0 = none ∧
    trapecio_compuesto f_log (-1) 1 2 = .ok none := by
  refine ⟨by norm_num, by norm_num [f_log], ?_⟩
  refine trapecio_compuesto_nan f_log (-1) 1 2 ?_ ?_ 1 (by norm_num) ?_
  · unfold validate_integration_params
    norm_num
  · simp [parse_check, f_log]
  · norm_num [f_log]

/-- Witness for the amended C6 on `[-1, 1]`, `n = 2`, integrand NaN on
non-positive inputs: all four variants return NaN results. -/
theorem C6_witness :
    trapecio_compuesto f_log (-1) 1 2 = .ok none ∧
    simpson_13_compuesto f_log (-1) 1 2 = .ok (none, 2) ∧
    simpson_38_compuesto f_log (-1) 1 2 = .ok (none, 3) ∧
    gauss_legendre (fun _ => ([], [])) f_log (-1) 1 2 = .ok none := by
  have hv : validate_integration_params (-1 : ℚ) 1 2 = none := by
    unfold validate_integration_params
    norm_num
  have hp : parse_check f_log = none := by
    simp [parse_check, f_log]
  have h := C6_amended_nan_result_returned f_log (-1) 1 2 (fun _ => ([], [])) hv hp
  refine ⟨h.1 ⟨0, by norm_num, by norm_num [f_log]⟩,
    ?_, ?_, ?_⟩
  · have := h.2.1 2 (by norm_num) ⟨0, by norm_num, by norm_num [f_log]⟩
    exact this
  · have := h.2.2.1 3 (by norm_num) ⟨0, by norm_num, by norm_num [f_log]⟩
    exact this
  · have := h.2.2.2 2 (by norm_num) ⟨0, by norm_num, ?_⟩
    · exact this
    · norm_num [gauss_sample_points, gauss_data, f_log]

/-- **C5 counterexample.** The tabulated two-point nodes are the 10-digit
decimals `±0.5773502692`, not `±1/√3`; in exact arithmetic the rule applied
to `x³` on `[0, 1]` returns `1/8 + (3/8)·0.5773502692² =
12500000000224608787/50000000000000000000`, which differs from the exact
integral `1/4` (by ≈ 4.5·10⁻¹², far above double rounding error), so
`gauss_legendre` with `n = 2` is not exact for `x³` on a general interval. -/
theorem C5_counterexample :
    gauss_legendre (fun _ => ([], [])) fcube 0 1 2 =
      .ok (some (12500000000224608787 / 50000000000000000000)) ∧
    (12500000000224608787 / 50000000000000000000 : ℚ) ≠ cubic_integral 0 1 := by
  constructor
  · have hv : validate_integration_params 0 1 2 = none := by
      unfold validate_integration_params
      norm_num
    simp only [gauss_legendre, hv]
    norm_num [parse_check, fcube, gauss_data, fsum, fadd, fscale, List.range_succ]
    simp
  · unfold cubic_integral
    norm_num

/-- **C5 amended.** With the source's tabulated nodes: the one-node rule is
exact for every polynomial of degree ≤ 1 (= 2n−1) on any interval, and the
two-node rule integrates `x³` exactly on intervals symmetric about the
origin (`a + b = 0`), where the odd powers cancel; on general intervals the
truncated decimal nodes break cubic exactness (see the counterexample). -/
theorem C5_amended_gauss_exactness (leggauss : ℕ → List ℚ × List ℚ)
    (p q a b : ℚ) (hab : a < b) :
    gauss_legendre leggauss (fun t => some (p * t + q)) a b 1 =
      .ok (some (linear_integral p q a b)) ∧
    (a + b = 0 →
      gauss_legendre leggauss fcube a b 2 = .ok (some (cubic_integral a b))) := by
  have hv1 : validate_integration_params a b 1 = none := by
    unfold validate_integration_params
    rw [if_neg (not_le.mpr hab)]
    norm_num
  have hv2 : validate_integration_params a b 2 = none := by
    unfold validate_integration_params
    rw [if_neg (not_le.mpr hab)]
    norm_num
  constructor
  · simp only [gauss_legendre, hv1]
    norm_num [parse_check, gauss_data, fsum, fadd, fscale, List.range_succ]
    simp only [reduceCtorEq, if_false, Option.some.injEq]
    unfold linear_integral
    ring
  · intro hsym
    simp only [gauss_legendre, hv2]
    norm_num [parse_check, fcube, gauss_data, fsum, fadd, fscale, List.range_succ]
    simp only [reduceCtorEq, if_false, Option.some.injEq]
    have hb : b = -a := by linarith
    subst hb
    unfold cubic_integral
    ring

/-- Witness for the amended C5: `∫₀¹ (2x+1) dx = 2` via the one-node rule,
and `∫₋₁¹ x³ dx = 0` via the two-node rule. -/
theorem C5_witness :
    gauss_legendre (fun _ => ([], [])) (fun t => some (2 * t + 1)) 0 1 1 =
      .ok (some (linear_integral 2 1 0 1)) ∧
    gauss_legendre (fun _ => ([], [])) fcube (-1) 1 2 =
      .ok (some (cubic_integral (-1) 1)) := by
  have h1 := C5_amended_gauss_exactness (fun _ => ([], [])) 2 1 0 1 (by norm_num)
  have h2 := C5_amended_gauss_exactness (fun _ => ([], [])) 2 1 (-1) 1 (by norm_num)
  exact ⟨h1.1, h2.2 (by norm_num)⟩

/-- The sorted point list is a permutation of the input pairs. -/
theorem sort_points_perm (pts : List (ℚ × ℚ)) : (sort_points pts).Perm pts :=
  List.perm_insertionSort _ pts

/-- The sorted point list is sorted by its keys. -/
theorem sort_points_sorted (pts : List (ℚ × ℚ)) :
    List.Sorted (fun p r : ℚ × ℚ => p.1 ≤ r.1) (sort_points pts) :=
  List.sorted_insertionSort _ pts

/-- With duplicate-free keys, sorting the zipped samples yields a list with
strictly increasing keys. -/
theorem sort_points_strict (x y : List ℚ) (hlen : x.length = y.length)
    (hnd : x.Nodup) :
    (sort_points (x.zip y)).Pairwise (fun p r : ℚ × ℚ => p.1 < r.1) := by
  have hperm := sort_points_perm (x.zip y)
  have hkeys : ((sort_points (x.zip y)).map Prod.fst).Perm x := by
    have h1 : ((sort_points (x.zip y)).map Prod.fst).Perm ((x.zip y).map Prod.fst) :=
      hperm.map Prod.fst
    rw [List.map_fst_zip x y (le_of_eq hlen)] at h1
    exact h1
  have hnd2 : ((sort_points (x.zip y)).map Prod.fst).Nodup := hkeys.nodup_iff.mpr hnd
  have hp1 : (sort_points (x.zip y)).Pairwise (fun p r : ℚ × ℚ => p.1 ≠ r.1) :=
    List.pairwise_map.mp hnd2
  have hp2 := sort_points_sorted (x.zip y)
  exact (hp2.and hp1).imp fun h => lt_of_le_of_ne h.1 h.2

/-- In a key-strictly-increasing list the head key bounds every member key
from below. -/
theorem pairwise_head_le (pts : List (ℚ × ℚ))
    (hp : pts.Pairwise (fun p r : ℚ × ℚ => p.1 < r.1))
    (p : ℚ × ℚ) (hmem : p ∈ pts) : (pts.getD 0 (0, 0)).1 ≤ p.1 := by
  cases pts with
  | nil => cases hmem
  | cons hd tl =>
    rcases List.mem_cons.mp hmem with rfl | htl
    · simp
    · have hlt := (List.pairwise_cons.mp hp).1 p htl
      simpa using le_of_lt hlt

/-- In a key-strictly-increasing list the last key bounds every member key
from above. -/
theorem pairwise_le_last (pts : List (ℚ × ℚ))
    (hp : pts.Pairwise (fun p r : ℚ × ℚ => p.1 < r.1))
    (p : ℚ × ℚ) (hmem : p ∈ pts) : p.1 ≤ (pts.getD (pts.length - 1) (0, 0)).1 := by
  induction pts with
  | nil => cases hmem
  | cons hd tl ih =>
    cases tl with
    | nil =>
      rcases List.mem_cons.mp hmem with rfl | htl
      · simp
      · cases htl
    | cons h2 t2 =>
      have hcons : (hd :: h2 :: t2).getD ((hd :: h2 :: t2).length - 1) (0, 0) =
          (h2 :: t2).getD ((h2 :: t2).length - 1) (0, 0) := by
        simp [List.getD_cons_succ]
      rw [hcons]
      have htail := (List.pairwise_cons.mp hp).2
      rcases List.mem_cons.mp hmem with rfl | htl
      · have hlt : (h2 :: t2).length - 1 < (h2 :: t2).length := by simp
        have hmm : (h2 :: t2).getD ((h2 :: t2).length - 1) (0, 0) ∈ h2 :: t2 := by
          rw [List.getD_eq_getElem _ _ hlt]
          exact List.getElem_mem hlt
        exact le_of_lt ((List.pairwise_cons.mp hp).1 _ hmm)
      · exact ih htail htl

/-- The segment scan of `linear_interpolate` reproduces the sample value at
every node of a key-strictly-increasing list with at least two points. -/
theorem find_segment_at_node (q v : ℚ) :
    ∀ pts : List (ℚ × ℚ), pts.Pairwise (fun p r : ℚ × ℚ => p.1 < r.1) →
      2 ≤ pts.length → (q, v) ∈ pts → find_segment q pts = some v := by
  intro pts
  induction pts with
  | nil =>
    intro _ h2 _
    simp at h2
  | cons p0 tl ih =>
    intro hp h2 hmem
    cases tl with
    | nil => simp at h2
    | cons p1 rest =>
      obtain ⟨x0, y0⟩ := p0
      obtain ⟨x1, y1⟩ := p1
      have h01 : x0 < x1 := (List.pairwise_cons.mp hp).1 (x1, y1) (by simp)
      rcases List.mem_cons.mp hmem with heq0 | hmem1
      · injection heq0 with hq hv
        subst hq
        subst hv
        rw [find_segment, if_pos ⟨le_refl q, le_of_lt h01⟩]
        norm_num
      · rcases List.mem_cons.mp hmem1 with heq1 | hmem2
        · injection heq1 with hq hv
          subst hv
          rw [hq]
          have hne : x1 - x0 ≠ 0 := sub_ne_zero.mpr (ne_of_gt h01)
          rw [find_segment, if_pos ⟨le_of_lt h01, le_refl x1⟩]
          rw [div_self hne]
          norm_num
        · have hp1 := (List.pairwise_cons.mp hp).2
          have h1q : x1 < q := by
            have hlt := (List.pairwise_cons.mp hp1).1 (q, v) hmem2
            simpa using hlt
          rw [find_segment, if_neg (by rintro ⟨-, hle⟩; exact absurd hle (not_le.mpr h1q))]
          have hrne : rest ≠ [] := List.ne_nil_of_mem hmem2
          refine ih hp1 ?_ (List.mem_cons_of_mem _ hmem2)
          have := List.length_pos.mpr hrne
          simp only [List.length_cons]
          omega

/-- The per-query body of `linear_interpolate` reproduces the sample value at
every node: no extrapolation branch fires, and the segment scan is exact. -/
theorem interp_point_at_node (pts : List (ℚ × ℚ))
    (hp : pts.Pairwise (fun p r : ℚ × ℚ => p.1 < r.1))
    (h2 : 2 ≤ pts.length) (q v : ℚ) (hmem : (q, v) ∈ pts) :
    interp_point pts q = some v := by
  have hfirst : (pts.getD 0 (0, 0)).1 ≤ q := by
    simpa using pairwise_head_le pts hp (q, v) hmem
  have hlast : q ≤ (pts.getD (pts.length - 1) (0, 0)).1 := by
    simpa using pairwise_le_last pts hp (q, v) hmem
  simp only [interp_point]
  rw [if_neg (by push_neg; exact ⟨hfirst, hlast⟩)]
  exact find_segment_at_node q v pts hp h2 hmem

/-- **C1.** For every valid sample set (equal lengths, at least 2 points,
pairwise-distinct abscissae) and every index `i`, piecewise-linear
interpolation reproduces the sample value exactly:
`linear_interpolate x y [x_i] = [y_i]`, including at the leftmost and
rightmost nodes. -/
theorem C1_linear_exact_at_nodes (x y : List ℚ)
    (hv : validate_input x y = none) (i : ℕ) (hi : i < x.length) :
    linear_interpolate x y [x.getD i 0] = .ok [y.getD i 0] := by
  obtain ⟨-, hlen, h2, hnd⟩ := validate_input_none x y hv
  have hiy : i < y.length := by omega
  have hzlen : (x.zip y).length = x.length := by
    rw [List.length_zip, hlen, min_self]
  have hmemz : (x.getD i 0, y.getD i 0) ∈ x.zip y := by
    rw [List.getD_eq_getElem x 0 hi, List.getD_eq_getElem y 0 hiy]
    have hiz : i < (x.zip y).length := by omega
    have heq : (x.zip y)[i] = (x[i], y[i]) := List.getElem_zip
    rw [← heq]
    exact List.getElem_mem hiz
  have hmem : (x.getD i 0, y.getD i 0) ∈ sort_points (x.zip y) :=
    (sort_points_perm (x.zip y)).mem_iff.mpr hmemz
  have hps : 2 ≤ (sort_points (x.zip y)).length := by
    rw [sort_points, (List.perm_insertionSort _ _).length_eq, hzlen]
    omega
  have hpair := sort_points_strict x y hlen hnd
  have hip := interp_point_at_node _ hpair hps _ _ hmem
  simp only [linear_interpolate, hv]
  rw [if_neg (by simp)]
  have hm : List.mapM (fun q => interp_point (sort_points (x.zip y)) q) [x.getD i 0] =
      some [y.getD i 0] := by
    rw [List.mapM_cons, List.mapM_nil, hip]
    rfl
  rw [hm]

/-- Witness for C1 at `x = [3, 1, 2]`, `y = [9, 1, 4]` (unsorted input),
`i = 0`: the value at the node `x₀ = 3` is `y₀ = 9`. -/
theorem C1_witness :
    linear_interpolate [3, 1, 2] [9, 1, 4] [3] = .ok [9] := by
  have h := C1_linear_exact_at_nodes [3, 1, 2] [9, 1, 4] (by decide) 0 (by decide)
  simpa using h

/-- Interpolation through the single node `i` is the constant `w i`. -/
theorem interpolate_Ico_singleton (v w : ℕ → ℚ) (i : ℕ) :
    Lagrange.interpolate (Finset.Ico i (i + 1)) v w = Polynomial.C (w i) := by
  rw [Nat.Ico_succ_singleton]
  exact Lagrange.interpolate_singleton w

/-- Pairwise-distinct nodes are injective on every index window below `n`. -/
theorem injOn_Ico (v : ℕ → ℚ) (n : ℕ)
    (hinj : ∀ i j, i < n → j < n → v i = v j → i = j) (a b : ℕ) (hb : b ≤ n) :
    Set.InjOn v (Finset.Ico a b) := by
  intro i hi j hj hij
  simp only [Finset.coe_Ico, Set.mem_Ico] at hi hj
  exact hinj i j (by omega) (by omega) hij

/-- The Aitken–Neville identity for interpolation polynomials on consecutive
index windows: `(v_{i+m+1} - v_i)·L_{i..i+m+1} =
(X - v_i)·L_{i+1..i+m+1} - (X - v_{i+m+1})·L_{i..i+m}`. -/
theorem interpolate_neville (v w : ℕ → ℚ) (n : ℕ)
    (hinj : ∀ i j, i < n → j < n → v i = v j → i = j) (i m : ℕ)
    (hlt : i + m + 1 < n) :
    Polynomial.C (v (i + m + 1) - v i) *
        Lagrange.interpolate (Finset.Ico i (i + m + 2)) v w =
      (Polynomial.X - Polynomial.C (v i)) *
          Lagrange.interpolate (Finset.Ico (i + 1) (i + m + 2)) v w -
        (Polynomial.X - Polynomial.C (v (i + m + 1))) *
          Lagrange.interpolate (Finset.Ico i (i + m + 1)) v w := by
  have hvs2 : Set.InjOn v (Finset.Ico i (i + m + 2)) :=
    injOn_Ico v n hinj _ _ (by omega)
  have hvsR : Set.InjOn v (Finset.Ico (i + 1) (i + m + 2)) :=
    injOn_Ico v n hinj _ _ (by omega)
  have hvsL : Set.InjOn v (Finset.Ico i (i + m + 1)) :=
    injOn_Ico v n hinj _ _ (by omega)
  have hdegR : (Lagrange.interpolate (Finset.Ico (i + 1) (i + m + 2)) v w).degree <
      ((m + 1 : ℕ) : WithBot ℕ) := by
    have h := Lagrange.degree_interpolate_lt w hvsR
    rwa [Nat.card_Ico, show i + m + 2 - (i + 1) = m + 1 by omega] at h
  have hdegL : (Lagrange.interpolate (Finset.Ico i (i + m + 1)) v w).degree <
      ((m + 1 : ℕ) : WithBot ℕ) := by
    have h := Lagrange.degree_interpolate_lt w hvsL
    rwa [Nat.card_Ico, show i + m + 1 - i = m + 1 by omega] at h
  have hsub : ∀ (aa : ℚ) (P : Polynomial ℚ), P.degree < ((m + 1 : ℕ) : WithBot ℕ) →
      ((Polynomial.X - Polynomial.C aa) * P).degree < ((m + 2 : ℕ) : WithBot ℕ) := by
    intro aa P hP
    refine lt_of_le_of_lt (Polynomial.degree_mul_le _ _) ?_
    rw [Polynomial.degree_X_sub_C]
    calc (1 : WithBot ℕ) + P.degree < 1 + ((m + 1 : ℕ) : WithBot ℕ) :=
          WithBot.add_lt_add_left (by simp) hP
      _ = ((m + 2 : ℕ) : WithBot ℕ) := by
          push_cast
          ring
  have hcard : (((Finset.Ico i (i + m + 2)).card : ℕ) : WithBot ℕ) =
      ((m + 2 : ℕ) : WithBot ℕ) := by
    rw [Nat.card_Ico, show i + m + 2 - i = m + 2 by omega]
  refine Polynomial.eq_of_degrees_lt_of_eval_index_eq _ hvs2 ?_ ?_ ?_
  · rw [hcard]
    refine lt_of_le_of_lt (Polynomial.degree_mul_le _ _) ?_
    refine lt_of_le_of_lt (add_le_add_right Polynomial.degree_C_le _) ?_
    rw [zero_add]
    have h := Lagrange.degree_interpolate_lt w hvs2
    rwa [Nat.card_Ico, show i + m + 2 - i = m + 2 by omega] at h
  · rw [hcard]
    exact lt_of_le_of_lt (Polynomial.degree_sub_le _ _)
      (max_lt (hsub _ _ hdegR) (hsub _ _ hdegL))
  · intro k hk
    have hk' := Finset.mem_Ico.mp hk
    rw [Polynomial.eval_mul, Polynomial.eval_C,
      Lagrange.eval_interpolate_at_node w hvs2 hk]
    rw [Polynomial.eval_sub, Polynomial.eval_mul, Polynomial.eval_mul,
      Polynomial.eval_sub, Polynomial.eval_sub, Polynomial.eval_X,
      Polynomial.eval_C, Polynomial.eval_C]
    by_cases hki : k = i
    · subst hki
      rw [Lagrange.eval_interpolate_at_node w hvsL
        (Finset.mem_Ico.mpr ⟨le_refl k, by omega⟩)]
      ring
    · by_cases hkm : k = i + m + 1
      · subst hkm
        rw [Lagrange.eval_interpolate_at_node w hvsR
          (Finset.mem_Ico.mpr ⟨by omega, by omega⟩)]
        ring
      · rw [Lagrange.eval_interpolate_at_node w hvsR
          (Finset.mem_Ico.mpr ⟨by omega, by omega⟩),
          Lagrange.eval_interpolate_at_node w hvsL
            (Finset.mem_Ico.mpr ⟨by omega, by omega⟩)]
        ring

/-- The divided-difference table entry `F[i][m]` equals the degree-`m`
(leading) coefficient of the interpolation polynomial through the nodes
`i..i+m`. -/
theorem dd_eq_coeff (v w : ℕ → ℚ) (n : ℕ)
    (hinj : ∀ i j, i < n → j < n → v i = v j → i = j) :
    ∀ m i, i + m < n →
      dd v w i m = (Lagrange.interpolate (Finset.Ico i (i + m + 1)) v w).coeff m := by
  intro m
  induction m with
  | zero =>
    intro i hi
    rw [show dd v w i 0 = w i from rfl, show i + 0 + 1 = i + 1 by omega,
      interpolate_Ico_singleton]
    simp
  | succ m ih =>
    intro i hi
    have hd : v (i + m + 1) - v i ≠ 0 := by
      refine sub_ne_zero.mpr fun he => ?_
      have := hinj (i + m + 1) i (by omega) (by omega) he
      omega
    have hvsR : Set.InjOn v (Finset.Ico (i + 1) (i + m + 2)) :=
      injOn_Ico v n hinj _ _ (by omega)
    have hvsL : Set.InjOn v (Finset.Ico i (i + m + 1)) :=
      injOn_Ico v n hinj _ _ (by omega)
    have hdegR : (Lagrange.interpolate (Finset.Ico (i + 1) (i + m + 2)) v w).degree <
        ((m + 1 : ℕ) : WithBot ℕ) := by
      have h := Lagrange.degree_interpolate_lt w hvsR
      rwa [Nat.card_Ico, show i + m + 2 - (i + 1) = m + 1 by omega] at h
    have hdegL : (Lagrange.interpolate (Finset.Ico i (i + m + 1)) v w).degree <
        ((m + 1 : ℕ) : WithBot ℕ) := by
      have h := Lagrange.degree_interpolate_lt w hvsL
      rwa [Nat.card_Ico, show i + m + 1 - i = m + 1 by omega] at h
    have hcR : (Lagrange.interpolate (Finset.Ico (i + 1) (i + m + 2)) v w).coeff (m + 1) = 0 :=
      Polynomial.coeff_eq_zero_of_degree_lt hdegR
    have hcL : (Lagrange.interpolate (Finset.Ico i (i + m + 1)) v w).coeff (m + 1) = 0 :=
      Polynomial.coeff_eq_zero_of_degree_lt hdegL
    have hnev := interpolate_neville v w n hinj i m (by omega)
    have hc := congrArg (fun p : Polynomial ℚ => p.coeff (m + 1)) hnev
    simp only [sub_mul, Polynomial.coeff_C_mul, Polynomial.coeff_sub,
      Polynomial.coeff_X_mul] at hc
    rw [hcR, hcL] at hc
    have hih1 := ih (i + 1) (by omega)
    rw [show i + 1 + m + 1 = i + m + 2 by omega] at hih1
    have hih2 := ih i (by omega)
    rw [show dd v w i (m + 1) =
      (dd v w (i + 1) m - dd v w i m) / (v (i + m + 1) - v i) from rfl]
    rw [hih1, hih2, show i + (m + 1) + 1 = i + m + 2 by omega, div_eq_iff hd]
    simp only [mul_zero, sub_zero] at hc
    linear_combination -hc

/-- Accumulating one more node extends the interpolation polynomial by the
Newton correction term `F[0][m+1] · ∏_{l ≤ m} (X - v l)`. -/
theorem interpolate_newton_step (v w : ℕ → ℚ) (n : ℕ)
    (hinj : ∀ i j, i < n → j < n → v i = v j → i = j) (m : ℕ) (hm : m + 1 < n) :
    Lagrange.interpolate (Finset.Ico 0 (m + 2)) v w =
      Lagrange.interpolate (Finset.Ico 0 (m + 1)) v w +
        Polynomial.C (dd v w 0 (m + 1)) * Lagrange.nodal (Finset.Ico 0 (m + 1)) v := by
  have hvs2 : Set.InjOn v (Finset.Ico 0 (m + 2)) := injOn_Ico v n hinj _ _ (by omega)
  have hvs1 : Set.InjOn v (Finset.Ico 0 (m + 1)) := injOn_Ico v n hinj _ _ (by omega)
  have hdeg2 : (Lagrange.interpolate (Finset.Ico 0 (m + 2)) v w).degree <
      ((m + 2 : ℕ) : WithBot ℕ) := by
    have h := Lagrange.degree_interpolate_lt w hvs2
    rwa [Nat.card_Ico, Nat.sub_zero] at h
  have hdeg1 : (Lagrange.interpolate (Finset.Ico 0 (m + 1)) v w).degree <
      ((m + 1 : ℕ) : WithBot ℕ) := by
    have h := Lagrange.degree_interpolate_lt w hvs1
    rwa [Nat.card_Ico, Nat.sub_zero] at h
  have hnodal_deg : (Lagrange.nodal (Finset.Ico 0 (m + 1)) v).natDegree = m + 1 := by
    rw [Lagrange.natDegree_nodal, Nat.card_Ico, Nat.sub_zero]
  have hnodal_coeff : (Lagrange.nodal (Finset.Ico 0 (m + 1)) v).coeff (m + 1) = 1 := by
    have hmon : (Lagrange.nodal (Finset.Ico 0 (m + 1)) v).Monic := Lagrange.nodal_monic
    have h := hmon.coeff_natDegree
    rwa [hnodal_deg] at h
  have hdd := dd_eq_coeff v w n hinj (m + 1) 0 (by omega)
  rw [show 0 + (m + 1) + 1 = m + 2 by omega] at hdd
  have hE : Lagrange.interpolate (Finset.Ico 0 (m + 2)) v w -
      (Lagrange.interpolate (Finset.Ico 0 (m + 1)) v w +
        Polynomial.C (dd v w 0 (m + 1)) * Lagrange.nodal (Finset.Ico 0 (m + 1)) v) = 0 := by
    refine Polynomial.eq_zero_of_degree_lt_of_eval_index_eq_zero _ hvs1 ?_ ?_
    · rw [Nat.card_Ico, Nat.sub_zero]
      rw [Polynomial.degree_lt_iff_coeff_zero]
      intro k hk
      rw [Polynomial.coeff_sub, Polynomial.coeff_add, Polynomial.coeff_C_mul]
      rcases eq_or_lt_of_le hk with heq | hlt2
      · have h1 := (Polynomial.degree_lt_iff_coeff_zero _ _).mp hdeg1 (m + 1) le_rfl
        rw [← heq, hnodal_coeff, ← hdd, h1]
        ring
      · have h2 := (Polynomial.degree_lt_iff_coeff_zero _ _).mp hdeg2 k (by omega)
        have h1 := (Polynomial.degree_lt_iff_coeff_zero _ _).mp hdeg1 k (by omega)
        have h0 : (Lagrange.nodal (Finset.Ico 0 (m + 1)) v).coeff k = 0 :=
          Polynomial.coeff_eq_zero_of_natDegree_lt (by rw [hnodal_deg]; omega)
        rw [h2, h1, h0]
        ring
    · intro k hk
      have hk' := Finset.mem_Ico.mp hk
      rw [Polynomial.eval_sub, Polynomial.eval_add, Polynomial.eval_mul, Polynomial.eval_C]
      rw [Lagrange.eval_interpolate_at_node w hvs2
        (Finset.mem_Ico.mpr ⟨by omega, by omega⟩)]
      rw [Lagrange.eval_interpolate_at_node w hvs1 hk]
      rw [Lagrange.eval_nodal_at_node hk]
      ring
  exact sub_eq_zero.mp hE

/-- Evaluating the interpolation polynomial through nodes `0..m` equals the
Newton-form sum with the divided-difference coefficients. -/
theorem eval_interpolate_eq_newton_sum (v w : ℕ → ℚ) (n : ℕ)
    (hinj : ∀ i j, i < n → j < n → v i = v j → i = j) (q : ℚ) :
    ∀ m, m < n →
      (Lagrange.interpolate (Finset.Ico 0 (m + 1)) v w).eval q =
        ∑ j ∈ Finset.range (m + 1), dd v w 0 j * ∏ l ∈ Finset.range j, (q - v l) := by
  intro m
  induction m with
  | zero =>
    intro _
    rw [show (0 : ℕ) + 1 = 0 + 0 + 1 by omega, interpolate_Ico_singleton]
    simp [dd]
  | succ m ih =>
    intro hm
    rw [show m + 1 + 1 = m + 2 by omega, interpolate_newton_step v w n hinj m hm]
    rw [Polynomial.eval_add, Polynomial.eval_mul, Polynomial.eval_C,
      Lagrange.eval_nodal, ih (by omega), Finset.sum_range_succ]
    rw [show Finset.Ico 0 (m + 1) = Finset.range (m + 1) from (Finset.range_eq_Ico ▸ rfl)]
    rw [show m + 2 = m + 1 + 1 from rfl, Finset.sum_range_succ, Finset.sum_range_succ]

/-- The structural Horner recurrence expands to the Newton-form sum. -/
theorem nested_eq_sum (q : ℚ) :
    ∀ (c xs : List ℚ), xs.length = c.length → c ≠ [] →
      spec_nested_value q c xs =
        ∑ j ∈ Finset.range c.length,
          c.getD j 0 * ∏ l ∈ Finset.range j, (q - xs.getD l 0) := by
  intro c
  induction c with
  | nil =>
    intro xs _ h
    exact absurd rfl h
  | cons c0 cs ih =>
    intro xs hlen hne
    match xs, cs with
    | x0 :: xns, [] =>
      simp [spec_nested_value]
    | x0 :: xns, c1 :: cs' =>
      have hlen' : xns.length = (c1 :: cs').length := by simpa using hlen
      rw [show spec_nested_value q (c0 :: c1 :: cs') (x0 :: xns) =
            spec_nested_value q (c1 :: cs') xns * (q - x0) + c0 from rfl]
      rw [ih xns hlen' (by simp)]
      rw [show (c0 :: c1 :: cs').length = (c1 :: cs').length + 1 from rfl]
      rw [Finset.sum_range_succ']
      simp only [List.getD_cons_succ, List.getD_cons_zero]
      rw [Finset.sum_mul]
      congr 1
      · refine Finset.sum_congr rfl fun j hj => ?_
        rw [Finset.prod_range_succ']
        simp only [List.getD_cons_succ, List.getD_cons_zero]
        ring
      · simp

/-- `List`-indexed sums over `range` agree with `Finset` sums. -/
theorem list_range_sum (f : ℕ → ℚ) (n : ℕ) :
    ((List.range n).map f).sum = ∑ i ∈ Finset.range n, f i := by
  induction n with
  | zero => simp
  | succ n ih =>
    rw [List.range_succ, List.map_append, List.sum_append, Finset.sum_range_succ, ih]
    simp

/-- `List`-indexed products over `range` agree with `Finset` products. -/
theorem list_range_prod (f : ℕ → ℚ) (n : ℕ) :
    ((List.range n).map f).prod = ∏ i ∈ Finset.range n, f i := by
  induction n with
  | zero => simp
  | succ n ih =>
    rw [List.range_succ, List.map_append, List.prod_append, Finset.prod_range_succ, ih]
    simp

/-- Duplicate-free lists have node maps injective on their index range. -/
theorem nodup_getD_injOn (x : List ℚ) (hnd : x.Nodup) :
    Set.InjOn (fun i => x.getD i 0) (Finset.range x.length) := by
  intro i hi j hj hij
  simp only [Finset.coe_range, Set.mem_Iio] at hi hj
  simp only [] at hij
  rw [List.getD_eq_getElem x 0 hi, List.getD_eq_getElem x 0 hj] at hij
  exact (hnd.getElem_inj_iff).mp hij

/-- If the guarded basis-product loop succeeds, it returns the accumulator
times the pure product. -/
theorem lagrange_basis_loop_ok (x : List ℚ) (i : ℕ) (q : ℚ) :
    ∀ (js : List ℕ) (acc r : ℚ), lagrange_basis_loop x i q js acc = .ok r →
      r = acc * (js.map fun j =>
        if i = j then 1 else (q - x.getD j 0) / (x.getD i 0 - x.getD j 0)).prod := by
  intro js
  induction js with
  | nil =>
    intro acc r h
    rw [lagrange_basis_loop] at h
    simp only [Except.ok.injEq] at h
    simp [← h]
  | cons j js' ih =>
    intro acc r h
    rw [lagrange_basis_loop] at h
    by_cases hij : i = j
    · rw [if_pos hij] at h
      rw [ih acc r h]
      simp [hij]
    · rw [if_neg hij] at h
      by_cases hg : |x.getD i 0 - x.getD j 0| < eps15
      · rw [if_pos hg] at h
        exact absurd h (by simp)
      · rw [if_neg hg] at h
        rw [ih _ r h]
        simp only [List.map_cons, List.prod_cons, if_neg hij]
        ring

/-- If the guarded accumulation loop succeeds, it returns the accumulator plus
the pure Lagrange sum over the visited indices. -/
theorem lagrange_total_loop_ok (x y : List ℚ) (q : ℚ) :
    ∀ (idxs : List ℕ) (acc r : ℚ), lagrange_total_loop x y q idxs acc = .ok r →
      r = acc + (idxs.map fun i => y.getD i 0 * lagrange_basis_val x i q).sum := by
  intro idxs
  induction idxs with
  | nil =>
    intro acc r h
    rw [lagrange_total_loop] at h
    simp only [Except.ok.injEq] at h
    simp [← h]
  | cons i rest ih =>
    intro acc r h
    rw [lagrange_total_loop] at h
    cases hb : lagrange_basis_loop x i q (List.range x.length) 1 with
    | error e =>
      rw [hb] at h
      exact absurd h (by simp)
    | ok li =>
      rw [hb] at h
      have hli : li = lagrange_basis_val x i q := by
        have hl := lagrange_basis_loop_ok x i q (List.range x.length) 1 li hb
        rw [hl, one_mul, lagrange_basis_val]
      rw [ih _ r h, hli]
      simp only [List.map_cons, List.sum_cons]
      ring

/-- A successful `lagrange_interpolate` on a single query returns the pure
Lagrange sum. -/
theorem lagrange_interpolate_ok (x y : List ℚ) (q val : ℚ)
    (hv : validate_input x y = none)
    (h : lagrange_interpolate x y [q] = .ok [val]) :
    val = lagrange_value x y q := by
  rw [lagrange_interpolate, hv] at h
  rw [List.mapM_cons, List.mapM_nil] at h
  cases hf : lagrange_total_loop x y q (List.range x.length) 0 with
  | error e =>
    rw [hf] at h
    exact absurd h (by simp [Bind.bind, Except.bind])
  | ok r =>
    rw [hf] at h
    have : r = val := by
      simpa [Bind.bind, Except.bind, Pure.pure, Except.pure] using h
    rw [← this]
    have hsum := lagrange_total_loop_ok x y q (List.range x.length) 0 r hf
    rw [hsum, zero_add, lagrange_value]

/-- The pure Lagrange sum of the source equals the evaluation of Mathlib's
interpolation polynomial on the same (unsorted) data. -/
theorem lagrange_value_eq_eval (x y : List ℚ) (hnd : x.Nodup) (q : ℚ) :
    lagrange_value x y q =
      (Lagrange.interpolate (Finset.range x.length)
        (fun i => x.getD i 0) (fun i => y.getD i 0)).eval q := by
  have hvs := nodup_getD_injOn x hnd
  rw [Lagrange.interpolate_apply, Polynomial.eval_finset_sum]
  rw [lagrange_value, list_range_sum]
  refine Finset.sum_congr rfl fun i hi => ?_
  rw [Polynomial.eval_mul, Polynomial.eval_C]
  congr 1
  rw [lagrange_basis_val, list_range_prod, Lagrange.basis, Polynomial.eval_prod]
  have hfi : (fun j => if i = j then (1 : ℚ)
      else (q - x.getD j 0) / (x.getD i 0 - x.getD j 0)) i = 1 := by simp
  rw [← Finset.prod_erase (Finset.range x.length) hfi]
  refine Finset.prod_congr rfl fun j hj => ?_
  have hji : j ≠ i := (Finset.mem_erase.mp hj).1
  rw [if_neg fun hc => hji hc.symm]
  rw [Lagrange.basisDivisor, Polynomial.eval_mul, Polynomial.eval_C,
    Polynomial.eval_sub, Polynomial.eval_X, Polynomial.eval_C]
  rw [div_eq_inv_mul]

/-- `getD` reads back a `range`-indexed map. -/
theorem getD_map_range' {α : Type} (g : ℕ → α) (d : α) (m i : ℕ) (hi : i < m) :
    ((List.range m).map g).getD i d = g i := by
  rw [List.getD_eq_getElem?_getD, List.getElem?_map, List.getElem?_range hi]
  rfl

/-- The interpolation polynomial built on the sorted samples coincides with
the one built on the original samples: both carry the same node/value set. -/
theorem interpolate_sorted_eq_orig (x y : List ℚ) (hv : validate_input x y = none) :
    Lagrange.interpolate (Finset.range x.length)
        (fun i => ((sort_points (x.zip y)).map Prod.fst).getD i 0)
        (fun i => ((sort_points (x.zip y)).map Prod.snd).getD i 0) =
      Lagrange.interpolate (Finset.range x.length)
        (fun i => x.getD i 0) (fun i => y.getD i 0) := by
  obtain ⟨-, hlen, h2, hnd⟩ := validate_input_none x y hv
  have hzlen : (x.zip y).length = x.length := by
    rw [List.length_zip, hlen, min_self]
  have hplen : (sort_points (x.zip y)).length = x.length := by
    rw [sort_points, (List.perm_insertionSort _ _).length_eq, hzlen]
  have hxlen : ((sort_points (x.zip y)).map Prod.fst).length = x.length := by
    rw [List.length_map, hplen]
  have hkeys : ((sort_points (x.zip y)).map Prod.fst).Nodup := by
    have hperm : (((sort_points (x.zip y)).map Prod.fst)).Perm x := by
      have h1 := (sort_points_perm (x.zip y)).map Prod.fst
      rwa [List.map_fst_zip x y (le_of_eq hlen)] at h1
    exact hperm.nodup_iff.mpr hnd
  have hvs_sorted : Set.InjOn (fun i => ((sort_points (x.zip y)).map Prod.fst).getD i 0)
      (Finset.range x.length) := by
    have h := nodup_getD_injOn _ hkeys
    rwa [hxlen] at h
  have hvs_orig : Set.InjOn (fun i => x.getD i 0) (Finset.range x.length) :=
    nodup_getD_injOn x hnd
  refine Lagrange.eq_interpolate_of_eval_eq _ hvs_orig ?_ ?_
  · have h := Lagrange.degree_interpolate_lt
      (fun i => ((sort_points (x.zip y)).map Prod.snd).getD i 0) hvs_sorted
    exact h
  · intro k hk
    have hkx := Finset.mem_range.mp hk
    have hky : k < y.length := by omega
    have hmemz : (x.getD k 0, y.getD k 0) ∈ x.zip y := by
      rw [List.getD_eq_getElem x 0 hkx, List.getD_eq_getElem y 0 hky]
      have hkz : k < (x.zip y).length := by omega
      have heq : (x.zip y)[k] = (x[k], y[k]) := List.getElem_zip
      rw [← heq]
      exact List.getElem_mem hkz
    have hmem : (x.getD k 0, y.getD k 0) ∈ sort_points (x.zip y) :=
      (sort_points_perm (x.zip y)).mem_iff.mpr hmemz
    obtain ⟨j, hjlen, hjeq⟩ := List.mem_iff_getElem.mp hmem
    have hjn : j < x.length := by omega
    have hj' : j < ((sort_points (x.zip y)).map Prod.fst).length := by omega
    have hj'' : j < ((sort_points (x.zip y)).map Prod.snd).length := by
      rw [List.length_map]
      omega
    have hvj : ((sort_points (x.zip y)).map Prod.fst).getD j 0 = x.getD k 0 := by
      rw [List.getD_eq_getElem _ 0 hj', List.getElem_map, hjeq]
    have hrj : ((sort_points (x.zip y)).map Prod.snd).getD j 0 = y.getD k 0 := by
      rw [List.getD_eq_getElem _ 0 hj'', List.getElem_map, hjeq]
    have hnode := Lagrange.eval_interpolate_at_node
      (fun i => ((sort_points (x.zip y)).map Prod.snd).getD i 0) hvs_sorted
      (Finset.mem_range.mpr hjn)
    simp only [] at hnode
    rw [← hvj, hnode, hrj]

/-- **C3.** Newton and Lagrange interpolation agree exactly (in exact
arithmetic): whenever `newton_divided_diffs` succeeds on a valid sample set
and `lagrange_interpolate` succeeds on the same samples at a query point,
evaluating the Newton form at that point returns exactly the Lagrange value
— both construct the unique interpolating polynomial of degree `n-1`. -/
theorem C3_newton_eq_lagrange (x y : List ℚ) (q : ℚ)
    (xs c : List ℚ) (val : ℚ)
    (hndd : newton_divided_diffs x y = .ok (xs, c))
    (hlag : lagrange_interpolate x y [q] = .ok [val]) :
    eval_newton_poly xs c [q] = .ok [val] := by
  cases hv : validate_input x y with
  | some e =>
    rw [newton_divided_diffs, hv] at hndd
    exact absurd hndd (by simp)
  | none =>
    simp only [newton_divided_diffs, hv] at hndd
    by_cases hb : newton_bad_span ((sort_points (x.zip y)).map Prod.fst)
    · rw [if_pos hb] at hndd
      exact absurd hndd (by simp)
    · rw [if_neg hb] at hndd
      simp only [Except.ok.injEq, Prod.mk.injEq] at hndd
      obtain ⟨hxs, hc⟩ := hndd
      obtain ⟨-, hlen, h2, hnd⟩ := validate_input_none x y hv
      have hzlen : (x.zip y).length = x.length := by
        rw [List.length_zip, hlen, min_self]
      have hplen : (sort_points (x.zip y)).length = x.length := by
        rw [sort_points, (List.perm_insertionSort _ _).length_eq, hzlen]
      have hxlen : ((sort_points (x.zip y)).map Prod.fst).length = x.length := by
        rw [List.length_map, hplen]
      have hclen : c.length = x.length := by
        rw [← hc, List.length_map, List.length_range, hxlen]
      have hxslen : xs.length = x.length := by rw [← hxs, hxlen]
      -- strictly increasing sorted keys give pairwise-distinct nodes
      have hpair := sort_points_strict x y hlen hnd
      have hxe : ∀ k, k < x.length →
          ((sort_points (x.zip y)).map Prod.fst).getD k 0 =
            ((sort_points (x.zip y)).getD k (0, 0)).1 := by
        intro k hk
        have hk1 : k < ((sort_points (x.zip y)).map Prod.fst).length := by omega
        have hk2 : k < (sort_points (x.zip y)).length := by omega
        rw [List.getD_eq_getElem _ _ hk1, List.getD_eq_getElem _ _ hk2, List.getElem_map]
      have hinj : ∀ i j, i < x.length → j < x.length →
          (fun i => ((sort_points (x.zip y)).map Prod.fst).getD i 0) i =
            (fun i => ((sort_points (x.zip y)).map Prod.fst).getD i 0) j → i = j := by
        intro i j hi hj he
        simp only [] at he
        by_contra hne
        rw [List.pairwise_iff_getElem] at hpair
        rcases Nat.lt_or_ge i j with hij | hij
        · have hlt := hpair i j (by omega) (by omega) hij
          rw [hxe i hi, hxe j hj] at he
          rw [List.getD_eq_getElem _ _ (by omega : i < (sort_points (x.zip y)).length),
            List.getD_eq_getElem _ _ (by omega : j < (sort_points (x.zip y)).length)] at he
          exact absurd he (ne_of_lt hlt)
        · have hji : j < i := by omega
          have hlt := hpair j i (by omega) (by omega) hji
          rw [hxe i hi, hxe j hj] at he
          rw [List.getD_eq_getElem _ _ (by omega : i < (sort_points (x.zip y)).length),
            List.getD_eq_getElem _ _ (by omega : j < (sort_points (x.zip y)).length)] at he
          exact absurd he.symm (ne_of_lt hlt)
      -- reduce eval_newton_poly to its per-query value
      rw [eval_newton_poly, if_neg (by rw [hxslen, hclen]; exact fun h => h rfl)]
      refine congrArg Except.ok ?_
      refine congrArg (fun t => [t]) ?_
      -- chain of equalities
      have hcne : c ≠ [] := by
        intro hnil
        rw [hnil] at hclen
        simp at hclen
        omega
      rw [eval_newton_point_eq_nested q c xs hcne (by rw [hxslen, hclen])]
      rw [nested_eq_sum q c xs (by rw [hxslen, hclen]) hcne]
      have hsum1 : ∑ j ∈ Finset.range c.length,
          c.getD j 0 * ∏ l ∈ Finset.range j, (q - xs.getD l 0) =
          ∑ j ∈ Finset.range x.length,
            dd (fun i => ((sort_points (x.zip y)).map Prod.fst).getD i 0)
               (fun i => ((sort_points (x.zip y)).map Prod.snd).getD i 0) 0 j *
              ∏ l ∈ Finset.range j,
                (q - ((sort_points (x.zip y)).map Prod.fst).getD l 0) := by
        rw [hclen]
        refine Finset.sum_congr rfl fun j hj => ?_
        have hjx := Finset.mem_range.mp hj
        congr 1
        · rw [← hc, getD_map_range' _ _ _ j (by omega)]
        · refine Finset.prod_congr rfl fun l hl => ?_
          rw [← hxs]
      rw [hsum1]
      have hn1 : x.length - 1 + 1 = x.length := by omega
      have heval := eval_interpolate_eq_newton_sum
        (fun i => ((sort_points (x.zip y)).map Prod.fst).getD i 0)
        (fun i => ((sort_points (x.zip y)).map Prod.snd).getD i 0)
        x.length hinj q (x.length - 1) (by omega)
      rw [hn1] at heval
      rw [← heval]
      rw [show Finset.Ico 0 x.length = Finset.range x.length from
        (Finset.range_eq_Ico ▸ rfl)]
      rw [interpolate_sorted_eq_orig x y hv]
      rw [← lagrange_value_eq_eval x y hnd q]
      exact (lagrange_interpolate_ok x y q val hv hlag).symm

/-- Witness for C3: `x = [0, 1]`, `y = [1, 3]`, query `5`.  The divided
differences give coefficients `[1, 2]`; both forms evaluate to `11`. -/
theorem C3_witness : eval_newton_poly [0, 1] [1, 2] [5] = .ok [11] := by
  have hv : validate_input [0, 1] [1, 3] = none := by decide
  have hsort : sort_points ([(0 : ℚ), 1].zip [(1 : ℚ), 3]) =
      [((0 : ℚ), (1 : ℚ)), (1, 3)] := by
    norm_num [sort_points, List.insertionSort, List.orderedInsert]
  have hbad : newton_bad_span [(0 : ℚ), 1] = false := by
    rw [newton_bad_span]
    norm_num [show List.range 2 = [0, 1] from rfl, show List.range 1 = [0] from rfl,
      eps15]
  have hndd : newton_divided_diffs [0, 1] [1, 3] = .ok ([0, 1], [1, 2]) := by
    rw [newton_divided_diffs, hv]
    simp only [hsort]
    rw [show ([((0 : ℚ), (1 : ℚ)), ((1 : ℚ), (3 : ℚ))].map Prod.fst) = [(0 : ℚ), 1] from rfl,
      show ([((0 : ℚ), (1 : ℚ)), ((1 : ℚ), (3 : ℚ))].map Prod.snd) = [(1 : ℚ), 3] from rfl]
    rw [if_neg (by rw [hbad]; simp)]
    rw [show ([(0 : ℚ), 1] : List ℚ).length = 2 from rfl,
      show List.range 2 = [0, 1] from rfl]
    norm_num [dd]
  have hloop : lagrange_total_loop [0, 1] [1, 3] 5
      (List.range ([(0 : ℚ), 1] : List ℚ).length) 0 = .ok 11 := by
    rw [show List.range ([(0 : ℚ), 1] : List ℚ).length = [0, 1] from rfl]
    norm_num [lagrange_total_loop, lagrange_basis_loop, eps15,
      show List.range ([(0 : ℚ), 1] : List ℚ).length = [0, 1] from rfl]
  have hlag : lagrange_interpolate [0, 1] [1, 3] [5] = .ok [11] := by
    rw [lagrange_interpolate, hv, List.mapM_cons, List.mapM_nil, hloop]
    rfl
  exact C3_newton_eq_lagrange [0, 1] [1, 3] 5 [0, 1] [1, 2] 11 hndd hlag

end Metodos
